import Mathlib

set_option autoImplicit false
set_option maxRecDepth 40000

/-!  Verification development for the RAG index builder of the
Docusaurus Nova assistant plugin.  The two builder scripts
(`build-rag-index.js` and `build-rag-index-embeddings.js`) are embedded
shallowly: JavaScript strings are modelled as `List Char`, JavaScript
numbers occurring here (lengths, counts, chunk sizes) as `Nat`, and the
file system, clock and embedding service are abstracted into explicit
inputs.  Every definition follows the corresponding source function. -/

namespace NovaRag

/-- Characters matched by the JavaScript regex class `\s` (ASCII range);
`Char.ofNat 11` and `Char.ofNat 12` are vertical tab and form feed. -/
def jsWs (c : Char) : Bool :=
  c = ' ' || c = '\t' || c = '\n' || c = '\r' || c = Char.ofNat 11 || c = Char.ofNat 12

/-- The JavaScript `String.prototype.trim`: drop leading and trailing
whitespace. -/
def jsTrim (l : List Char) : List Char :=
  ((l.dropWhile jsWs).reverse.dropWhile jsWs).reverse

/-- Sentence-terminating punctuation `[.!?]` used by the chunker's
splitting regex. -/
def isSentEnd (c : Char) : Bool :=
  c = '.' || c = '!' || c = '?'

/-- Whether the previously scanned character satisfies the lookbehind
`(?<=[.!?])`. -/
def prevPunct : Option Char → Bool
  | some c => isSentEnd c
  | none => false

/-- Scanner for `content.split(/(?<=[.!?])\s+/)`: a separator is a maximal
whitespace run whose first character is preceded by sentence punctuation.
The Boolean state says whether we are inside a separator run; `cur` is the
reversed accumulator of the piece being built. -/
def ssAux : Bool → Option Char → List Char → List Char → List (List Char)
  | _, _, cur, [] => [cur.reverse]
  | false, prev, cur, c :: rest =>
    if jsWs c && prevPunct prev then
      cur.reverse :: ssAux true prev [] rest
    else
      ssAux false (some c) (c :: cur) rest
  | true, prev, cur, c :: rest =>
    if jsWs c then
      ssAux true prev cur rest
    else
      ssAux false (some c) (c :: cur) rest

/-- The sentence list of the chunker: `content.split(/(?<=[.!?])\s+/)`. -/
def splitSentences (content : List Char) : List (List Char) :=
  ssAux false none [] content

/-- Scanner for `str.split(/\s+/)`: split on maximal whitespace runs.
A leading or trailing run produces an empty piece, as in JavaScript. -/
def swAux : Bool → List Char → List Char → List (List Char)
  | _, cur, [] => [cur.reverse]
  | true, cur, c :: rest =>
    if jsWs c then swAux true cur rest
    else swAux false (c :: cur) rest
  | false, cur, c :: rest =>
    if jsWs c then cur.reverse :: swAux true [] rest
    else swAux false (c :: cur) rest

/-- The word list `str.split(/\s+/)` used for the overlap tail. -/
def splitWsRuns (l : List Char) : List (List Char) :=
  swAux false [] l

/-- JavaScript `arr.slice(-k)`.  Note the quirk the builder relies on:
`slice(-0)` is `slice(0)`, the whole array, so an overlap budget below 5
keeps every word rather than none. -/
def jsSliceLast {α : Type} (k : Nat) (l : List α) : List α :=
  if k = 0 then l else l.drop (l.length - k)

/-- The overlap seed of a freshly closed chunk:
`currentChunk.split(/\s+/).slice(-Math.floor(overlap / 5)).join(' ')`. -/
def overlapSeed (cur : List Char) (overlap : Nat) : List Char :=
  List.intercalate [' '] (jsSliceLast (overlap / 5) (splitWsRuns cur))

/-- One iteration of the accumulation loop of `splitIntoChunks`: state is
the pair (chunks pushed so far, current buffer); `s` is the next sentence. -/
def chunkStep (chunkSize overlap : Nat) (st : List (List Char) × List Char)
    (s : List Char) : List (List Char) × List Char :=
  let chunks := st.1
  let cur := st.2
  if cur.length + s.length > chunkSize ∧ cur.length > 0 then
    (chunks ++ [jsTrim cur], overlapSeed cur overlap ++ ' ' :: s)
  else
    (chunks, cur ++ (if cur.isEmpty then [] else [' ']) ++ s)

/-- The chunker `splitIntoChunks(content, chunkSize, overlap)` of both
builder scripts (their bodies are identical). -/
def splitIntoChunks (content : List Char) (chunkSize overlap : Nat) :
    List (List Char) :=
  let st := (splitSentences content).foldl (chunkStep chunkSize overlap) ([], [])
  if (jsTrim st.2).isEmpty then st.1 else st.1 ++ [jsTrim st.2]

/-- The stop-word set of `extractKeywords`, verbatim from the source. -/
def stopWords : List (List Char) :=
  ["the", "a", "an", "and", "or", "but", "in", "on", "at", "to", "for",
   "of", "with", "by", "from", "as", "is", "was", "are", "were", "been",
   "be", "have", "has", "had", "do", "does", "did", "will", "would", "could",
   "should", "may", "might", "must", "shall", "can", "this", "that", "these",
   "those", "i", "you", "he", "she", "it", "we", "they", "what", "which",
   "who", "when", "where", "why", "how", "all", "each", "every", "both",
   "few", "more", "most", "other", "some", "such", "no", "not", "only",
   "own", "same", "so", "than", "too", "very", "just", "also",
   "now"].map String.toList

/-- Lower-case letter or digit, the characters kept by the replace
`[^a-z0-9\s]` after lower-casing. -/
def isLowerAlnum (c : Char) : Bool :=
  ('a' ≤ c && c ≤ 'z') || ('0' ≤ c && c ≤ '9')

/-- The token stream of `extractKeywords`: lower-case, strip everything but
`[a-z0-9\s]`, split on whitespace, keep tokens longer than two characters
that are not stop words. -/
def kwTokens (content : List Char) : List (List Char) :=
  (splitWsRuns ((content.map Char.toLower).filter
      (fun c => isLowerAlnum c || jsWs c))).filter
    (fun w => 2 < w.length && !(stopWords.contains w))

/-- One step of frequency counting: `frequency[word] = (frequency[word] || 0) + 1`
on a plain object, modelled as an insertion-ordered association list. -/
def bumpFreq (m : List (List Char × Nat)) (w : List Char) :
    List (List Char × Nat) :=
  if (m.lookup w).isSome then
    m.map (fun p => if p.1 = w then (p.1, p.2 + 1) else p)
  else
    m ++ [(w, 1)]

/-- The insertion-ordered frequency table of the token stream. -/
def freqTable (ws : List (List Char)) : List (List Char × Nat) :=
  ws.foldl bumpFreq []

/-- Decimal digit character. -/
def isDigitCh (c : Char) : Bool :=
  '0' ≤ c && c ≤ '9'

/-- Numeric value of a string of decimal digits. -/
def digitsToNat (w : List Char) : Nat :=
  w.foldl (fun n c => n * 10 + (c.toNat - 48)) 0

/-- Whether a property key is an ECMAScript array index: a canonical
decimal numeral (no leading zero except "0" itself) below 2^32 - 1.
`Object.entries` enumerates such keys first, in ascending numeric order,
before the remaining string keys in insertion order. -/
def isArrayIndexKey (w : List Char) : Bool :=
  !w.isEmpty && w.all isDigitCh && (w = ['0'] || w.head? ≠ some '0') &&
    digitsToNat w < 4294967295

/-- Stable insertion (ascending by numeric key value) used to model the
ascending enumeration of array-index keys. -/
def insAsc (x : List Char × Nat) :
    List (List Char × Nat) → List (List Char × Nat)
  | [] => [x]
  | y :: ys =>
    if digitsToNat x.1 ≤ digitsToNat y.1 then x :: y :: ys else y :: insAsc x ys

/-- Insertion sort by ascending numeric key value (stable). -/
def sortAscKey (l : List (List Char × Nat)) : List (List Char × Nat) :=
  l.foldr insAsc []

/-- The enumeration order of `Object.entries(frequency)`: array-index keys
first in ascending numeric order, then the other keys in insertion order. -/
def jsEntries (m : List (List Char × Nat)) : List (List Char × Nat) :=
  sortAscKey (m.filter (fun p => isArrayIndexKey p.1)) ++
    m.filter (fun p => !isArrayIndexKey p.1)

/-- Stable insertion by descending count, modelling the stable JavaScript
`sort((a, b) => b[1] - a[1])`: an element is placed before the first
element whose count is not larger. -/
def insDesc (x : List Char × Nat) :
    List (List Char × Nat) → List (List Char × Nat)
  | [] => [x]
  | y :: ys => if y.2 ≤ x.2 then x :: y :: ys else y :: insDesc x ys

/-- Stable insertion sort by descending count. -/
def sortDescCnt (l : List (List Char × Nat)) : List (List Char × Nat) :=
  l.foldr insDesc []

/-- The keyword extractor `extractKeywords(content, maxKeywords)` of
`build-rag-index.js`. -/
def extractKeywords (content : List Char) (maxKeywords : Nat) :
    List (List Char) :=
  ((sortDescCnt (jsEntries (freqTable (kwTokens content)))).take
    maxKeywords).map Prod.fst

/-- Reduction to a 32-bit word. -/
def w32 (n : Nat) : Nat := n % 4294967296

/-- Bitwise complement of a 32-bit word. -/
def w32not (n : Nat) : Nat := 4294967295 - w32 n

/-- Left rotation of a 32-bit word. -/
def rotl32 (x n : Nat) : Nat :=
  w32 ((w32 x <<< n) ||| (w32 x >>> (32 - n)))

/-- The 64 MD5 round constants. -/
def md5K : List Nat :=
  [0xd76aa478, 0xe8c7b756, 0x242070db, 0xc1bdceee,
   0xf57c0faf, 0x4787c62a, 0xa8304613, 0xfd469501,
   0x698098d8, 0x8b44f7af, 0xffff5bb1, 0x895cd7be,
   0x6b901122, 0xfd987193, 0xa679438e, 0x49b40821,
   0xf61e2562, 0xc040b340, 0x265e5a51, 0xe9b6c7aa,
   0xd62f105d, 0x02441453, 0xd8a1e681, 0xe7d3fbc8,
   0x21e1cde6, 0xc33707d6, 0xf4d50d87, 0x455a14ed,
   0xa9e3e905, 0xfcefa3f8, 0x676f02d9, 0x8d2a4c8a,
   0xfffa3942, 0x8771f681, 0x6d9d6122, 0xfde5380c,
   0xa4beea44, 0x4bdecfa9, 0xf6bb4b60, 0xbebfbc70,
   0x289b7ec6, 0xeaa127fa, 0xd4ef3085, 0x04881d05,
   0xd9d4d039, 0xe6db99e5, 0x1fa27cf8, 0xc4ac5665,
   0xf4292244, 0x432aff97, 0xab9423a7, 0xfc93a039,
   0x655b59c3, 0x8f0ccc92, 0xffeff47d, 0x85845dd1,
   0x6fa87e4f, 0xfe2ce6e0, 0xa3014314, 0x4e0811a1,
   0xf7537e82, 0xbd3af235, 0x2ad7d2bb, 0xeb86d391]

/-- The 64 MD5 per-round left-rotation amounts. -/
def md5S : List Nat :=
  [7, 12, 17, 22, 7, 12, 17, 22, 7, 12, 17, 22, 7, 12, 17, 22,
   5, 9, 14, 20, 5, 9, 14, 20, 5, 9, 14, 20, 5, 9, 14, 20,
   4, 11, 16, 23, 4, 11, 16, 23, 4, 11, 16, 23, 4, 11, 16, 23,
   6, 10, 15, 21, 6, 10, 15, 21, 6, 10, 15, 21, 6, 10, 15, 21]

/-- The MD5 round mixing function. -/
def md5F (i b c d : Nat) : Nat :=
  if i < 16 then (b &&& c) ||| (w32not b &&& d)
  else if i < 32 then (d &&& b) ||| (w32not d &&& c)
  else if i < 48 then b ^^^ c ^^^ d
  else c ^^^ (b ||| w32not d)

/-- The MD5 message-word index for round `i`. -/
def md5G (i : Nat) : Nat :=
  if i < 16 then i
  else if i < 32 then (5 * i + 1) % 16
  else if i < 48 then (3 * i + 5) % 16
  else (7 * i) % 16

/-- The four-word internal state of MD5. -/
structure MD5State where
  a : Nat
  b : Nat
  c : Nat
  d : Nat

/-- One MD5 round on the state, with message-word accessor `m`. -/
def md5Step (m : Nat → Nat) (st : MD5State) (i : Nat) : MD5State :=
  let f := md5F i st.b st.c st.d
  let tmp := w32 (st.a + f + md5K.getD i 0 + m (md5G i))
  { a := st.d, b := w32 (st.b + rotl32 tmp (md5S.getD i 0)),
    c := st.b, d := st.c }

/-- Little-endian 32-bit words of one 64-byte block. -/
def md5Words (block : List Nat) (j : Nat) : Nat :=
  block.getD (4 * j) 0 + 256 * block.getD (4 * j + 1) 0 +
    65536 * block.getD (4 * j + 2) 0 + 16777216 * block.getD (4 * j + 3) 0

/-- Process one 64-byte block. -/
def md5Block (h : MD5State) (block : List Nat) : MD5State :=
  let st := (List.range 64).foldl (md5Step (md5Words block)) h
  { a := w32 (h.a + st.a), b := w32 (h.b + st.b),
    c := w32 (h.c + st.c), d := w32 (h.d + st.d) }

/-- MD5 padding: a 0x80 byte, zeros up to 56 mod 64, then the bit length
as eight little-endian bytes. -/
def md5Pad (msg : List Nat) : List Nat :=
  let r := (msg.length + 1) % 64
  msg ++ 128 :: (List.replicate ((120 - r) % 64) 0 ++
    (List.range 8).map (fun i => (8 * msg.length) >>> (8 * i) % 256))

/-- Split a byte list into 64-byte blocks (fuelled; the fuel is an upper
bound on the number of blocks). -/
def chunk64Aux : Nat → List Nat → List (List Nat)
  | 0, _ => []
  | _ + 1, [] => []
  | fuel + 1, l => l.take 64 :: chunk64Aux fuel (l.drop 64)

/-- The four bytes of a 32-bit word, little endian. -/
def wordLEbytes (w : Nat) : List Nat :=
  [w % 256, w / 256 % 256, w / 65536 % 256, w / 16777216 % 256]

/-- The 16-byte MD5 digest of a byte string. -/
def md5Digest (msg : List Nat) : List Nat :=
  let p := md5Pad msg
  let h := (chunk64Aux p.length p).foldl md5Block
    ⟨0x67452301, 0xefcdab89, 0x98badcfe, 0x10325476⟩
  ([h.a, h.b, h.c, h.d].map wordLEbytes).flatten

/-- Lower-case hexadecimal digit character for a value below 16. -/
def hexDigitCh (n : Nat) : Char :=
  if n < 10 then Char.ofNat (48 + n) else Char.ofNat (87 + n)

/-- Two-character lower-case hexadecimal rendering of a byte. -/
def byteHex (b : Nat) : List Char :=
  [hexDigitCh (b / 16 % 16), hexDigitCh (b % 16)]

/-- The 32-character hexadecimal MD5 digest of a byte string, as produced
by `crypto.createHash('md5').update(s).digest('hex')`. -/
def md5Hex (msg : List Nat) : List Char :=
  ((md5Digest msg).map byteHex).flatten

/-- Byte encoding of a string; models UTF-8 for the ASCII inputs that
occur in the builder (file paths and decimal indices). -/
def strBytes (s : List Char) : List Nat :=
  s.map Char.toNat

/-- The chunk id `generateChunkId(filePath, chunkIndex)`: the first eight
hexadecimal characters of the MD5 digest of `filePath + "-" + chunkIndex`. -/
def generateChunkId (filePath : List Char) (chunkIndex : Nat) : List Char :=
  (md5Hex (strBytes (filePath ++ '-' :: Nat.toDigits 10 chunkIndex))).take 8

/-- The double-quote character. -/
def quoteD : Char := Char.ofNat 34

/-- The single-quote character. -/
def quoteS : Char := Char.ofNat 39

/-- Either quote character. -/
def isQuoteCh (c : Char) : Bool :=
  c = quoteD || c = quoteS

/-- Quote removal of `build-rag-index.js`: if the value starts and ends
with `"`, or starts and ends with `'`, take `value.slice(1, -1)`.
JavaScript `startsWith`/`endsWith` are both true on a one-character
string, and `slice(1, -1)` of it is empty. -/
def stripQuotesJs (v : List Char) : List Char :=
  if (v.head? = some quoteD && v.getLast? = some quoteD) ||
      (v.head? = some quoteS && v.getLast? = some quoteS) then
    (v.drop 1).dropLast
  else v

/-- Quote removal of `build-rag-index-embeddings.js`:
`val.replace(/^["']|["']$/g, '')` removes one leading quote character and
one trailing quote character, each independently of the other. -/
def stripQuotesEmbJs (v : List Char) : List Char :=
  let v1 := match v with
    | c :: rest => if isQuoteCh c then rest else v
    | [] => []
  match v1.getLast? with
  | some c => if isQuoteCh c then v1.dropLast else v1
  | none => v1

/-- A frontmatter line of `build-rag-index.js`: split at the first colon
when its index is positive, trim both sides, strip quotes from the value;
otherwise the line is skipped. -/
def parseFmLine (line : List Char) : Option (List Char × List Char) :=
  match line.findIdx? (fun ch => ch = ':') with
  | none => none
  | some 0 => none
  | some idx =>
    some (jsTrim (line.take idx), stripQuotesJs (jsTrim (line.drop (idx + 1))))

/-- A frontmatter line of `build-rag-index-embeddings.js`; identical except
for the quote-removal step. -/
def parseFmLineEmb (line : List Char) : Option (List Char × List Char) :=
  match line.findIdx? (fun ch => ch = ':') with
  | none => none
  | some 0 => none
  | some idx =>
    some (jsTrim (line.take idx), stripQuotesEmbJs (jsTrim (line.drop (idx + 1))))

/-- Index of the last newline of a list, if any. -/
def lastNlIdx (w : List Char) : Option Nat :=
  (w.reverse.findIdx? (fun c => c = '\n')).map (fun j => w.length - 1 - j)

/-- Scan for the closing delimiter `\n---\s*\n` of the frontmatter regex:
returns the index where `\n---` starts (lazy, i.e. earliest) and the
length consumed through the final newline (greedy `\s*`). -/
def fmFindClose : Nat → List Char → Option (Nat × Nat)
  | 0, _ => none
  | _ + 1, [] => none
  | fuel + 1, l@(_ :: rest) =>
    if ("\n---".toList).isPrefixOf l then
      match lastNlIdx ((l.drop 4).takeWhile jsWs) with
      | some k => some (0, 4 + k + 1)
      | none => (fmFindClose fuel rest).map (fun p => (p.1 + 1, p.2))
    else (fmFindClose fuel rest).map (fun p => (p.1 + 1, p.2))

/-- Descending candidate positions for the newline ending the opening
delimiter `---\s*\n` (the greedy `\s*` prefers the latest). -/
def nlCandidates (w : List Char) : List Nat :=
  ((List.range w.length).filter (fun i => w.getD i ' ' = '\n')).reverse

/-- The frontmatter block matcher, implementing the regex
`^---\s*\n([\s\S]*?)\n---\s*\n` of both builders: returns the inner block
and the remaining body when the document starts with a frontmatter block. -/
def fmMatch (content : List Char) : Option (List Char × List Char) :=
  if ("---".toList).isPrefixOf content then
    let rest := content.drop 3
    (nlCandidates (rest.takeWhile jsWs)).findSome? (fun k =>
      let afterOpen := rest.drop (k + 1)
      match fmFindClose (afterOpen.length + 1) afterOpen with
      | some (i, consumed) =>
        some (afterOpen.take i, afterOpen.drop (i + consumed))
      | none => none)
  else none

/-- Split a character list at newlines, as `str.split('\n')`. -/
def splitOnNlAux : List Char → List Char → List (List Char)
  | cur, [] => [cur.reverse]
  | cur, c :: rest =>
    if c = '\n' then cur.reverse :: splitOnNlAux [] rest
    else splitOnNlAux (c :: cur) rest

/-- The lines of a frontmatter block: `frontmatter.split('\n')`. -/
def splitOnNl (l : List Char) : List (List Char) :=
  splitOnNlAux [] l

/-- Assignment `metadata[key] = value` on a plain object, modelled as an
insertion-ordered association list: overwrite in place or append. -/
def metaSet (m : List (List Char × List Char)) (k v : List Char) :
    List (List Char × List Char) :=
  if (m.lookup k).isSome then
    m.map (fun p => if p.1 = k then (k, v) else p)
  else m ++ [(k, v)]

/-- `parseFrontmatter(content)` of `build-rag-index.js`: metadata mapping
and body with the frontmatter block removed. -/
def parseFrontmatter (content : List Char) :
    List (List Char × List Char) × List Char :=
  match fmMatch content with
  | none => ([], content)
  | some (inner, body) =>
    ((splitOnNl inner).foldl (fun m line =>
      match parseFmLine line with
      | some kv => metaSet m kv.1 kv.2
      | none => m) [], body)

/-- `parseFrontmatter(content)` of `build-rag-index-embeddings.js`; same
regex, different quote removal in the line parser. -/
def parseFrontmatterEmb (content : List Char) :
    List (List Char × List Char) × List Char :=
  match fmMatch content with
  | none => ([], content)
  | some (inner, body) =>
    ((splitOnNl inner).foldl (fun m line =>
      match parseFmLineEmb line with
      | some kv => metaSet m kv.1 kv.2
      | none => m) [], body)

/-- The backtick character. -/
def btick : Char := Char.ofNat 96

/-- First index at which `pat` occurs as a prefix of a suffix of the list. -/
def findSub (pat : List Char) : List Char → Option Nat
  | [] => if pat.isPrefixOf ([] : List Char) then some 0 else none
  | l@(_ :: rest) =>
    if pat.isPrefixOf l then some 0
    else (findSub pat rest).map (fun n => n + 1)

/-- Like `findSub`, but fails on a line terminator before the match, for
regex fragments whose `.*?` cannot cross lines. -/
def findNoNl (pat : List Char) : List Char → Option Nat
  | [] => if pat.isPrefixOf ([] : List Char) then some 0 else none
  | l@(c :: rest) =>
    if pat.isPrefixOf l then some 0
    else if c = '\n' || c = '\r' then none
    else (findNoNl pat rest).map (fun n => n + 1)

/-- Scanner for the replace of fenced code blocks `/(three backticks)
[\s\S]*?(three backticks)/g` with the empty string. -/
def scbAux : Nat → List Char → List Char
  | 0, l => l
  | _ + 1, [] => []
  | fuel + 1, l@(c :: rest) =>
    if [btick, btick, btick].isPrefixOf l then
      match findSub [btick, btick, btick] (l.drop 3) with
      | some i => scbAux fuel (l.drop (3 + i + 3))
      | none => c :: scbAux fuel rest
    else c :: scbAux fuel rest

/-- Scanner for the replace of inline code spans (backtick, one or more
non-backtick characters, backtick) with the empty string. -/
def sicAux : Nat → List Char → List Char
  | 0, l => l
  | _ + 1, [] => []
  | fuel + 1, c :: rest =>
    if c = btick then
      let inner := rest.takeWhile (fun x => x ≠ btick)
      if !inner.isEmpty && (rest.drop inner.length).head? = some btick then
        sicAux fuel (rest.drop (inner.length + 1))
      else c :: sicAux fuel rest
    else c :: sicAux fuel rest

/-- Scanner for the image replace `/!\[.*?\]\(.*?\)/g` with the empty
string; dots do not match line terminators. -/
def imgAux : Nat → List Char → List Char
  | 0, l => l
  | _ + 1, [] => []
  | fuel + 1, l@(c :: rest) =>
    if ("![".toList).isPrefixOf l then
      match findNoNl ("](".toList) (l.drop 2) with
      | some j =>
        match findNoNl (")".toList) (l.drop (2 + j + 2)) with
        | some k => imgAux fuel (l.drop (2 + j + 2 + k + 1))
        | none => c :: imgAux fuel rest
      | none => c :: imgAux fuel rest
    else c :: imgAux fuel rest

/-- Scanner for the link replace `/\[([^\]]+)\]\([^)]+\)/g` with the link
text `$1`. -/
def linkAux : Nat → List Char → List Char
  | 0, l => l
  | _ + 1, [] => []
  | fuel + 1, c :: rest =>
    if c = '[' then
      let txt := rest.takeWhile (fun x => x ≠ ']')
      if !txt.isEmpty && (rest.drop txt.length).head? = some ']' then
        let after := rest.drop (txt.length + 1)
        if after.head? = some '(' then
          let url := (after.drop 1).takeWhile (fun x => x ≠ ')')
          if !url.isEmpty && (after.drop (1 + url.length)).head? = some ')' then
            txt ++ linkAux fuel (after.drop (1 + url.length + 1))
          else c :: linkAux fuel rest
        else c :: linkAux fuel rest
      else c :: linkAux fuel rest
    else c :: linkAux fuel rest

/-- Scanner for the markup-tag replace `/<[^>]+>/g` with the empty string. -/
def tagAux : Nat → List Char → List Char
  | 0, l => l
  | _ + 1, [] => []
  | fuel + 1, c :: rest =>
    if c = '<' then
      let inner := rest.takeWhile (fun x => x ≠ '>')
      if !inner.isEmpty && (rest.drop inner.length).head? = some '>' then
        tagAux fuel (rest.drop (inner.length + 1))
      else c :: tagAux fuel rest
    else c :: tagAux fuel rest

/-- Scanner for the multiline replaces of `import`/`export` declaration
lines `/^KEYWORD\s+.*$/gm` with the empty string.  The Boolean state
tracks whether the scanner is at the start of a line; note that the
greedy `\s+` may cross line terminators, as in JavaScript. -/
def lineKwAux (kw : List Char) : Nat → Bool → List Char → List Char
  | 0, _, l => l
  | _ + 1, _, [] => []
  | fuel + 1, atStart, l@(c :: rest) =>
    if atStart && kw.isPrefixOf l then
      let afterKw := l.drop kw.length
      let ws := afterKw.takeWhile jsWs
      if ws.isEmpty then c :: lineKwAux kw fuel false rest
      else
        let rest2 := afterKw.drop ws.length
        lineKwAux kw fuel false
          (rest2.drop (rest2.takeWhile (fun x => x ≠ '\n' && x ≠ '\r')).length)
    else c :: lineKwAux kw fuel (c = '\n' || c = '\r') rest

/-- Upper-case ASCII letter. -/
def isUpperCh (c : Char) : Bool :=
  'A' ≤ c && c ≤ 'Z'

/-- ASCII letter. -/
def isAlphaCh (c : Char) : Bool :=
  ('a' ≤ c && c ≤ 'z') || ('A' ≤ c && c ≤ 'Z')

/-- Scanner for the self-closing component replace
`/<[A-Z][a-zA-Z]*[^>]*\/>/g` with the empty string. -/
def jsxSelfAux : Nat → List Char → List Char
  | 0, l => l
  | _ + 1, [] => []
  | fuel + 1, c :: rest =>
    if c = '<' then
      let u := rest.takeWhile (fun x => x ≠ '>')
      if 2 ≤ u.length &&
          (match u.head? with | some h => isUpperCh h | none => false) &&
          u.getLast? = some '/' && (rest.drop u.length).head? = some '>' then
        jsxSelfAux fuel (rest.drop (u.length + 1))
      else c :: jsxSelfAux fuel rest
    else c :: jsxSelfAux fuel rest

/-- Scan for the closing tag `<\/[A-Z][a-zA-Z]*>` of the paired component
replace: returns its start index and length. -/
def findJsxClose : Nat → List Char → Option (Nat × Nat)
  | 0, _ => none
  | _ + 1, [] => none
  | fuel + 1, l@(_ :: rest) =>
    if ("</".toList).isPrefixOf l then
      match l.drop 2 with
      | d :: drest =>
        if isUpperCh d then
          let als := drest.takeWhile isAlphaCh
          if (drest.drop als.length).head? = some '>' then
            some (0, 2 + 1 + als.length + 1)
          else (findJsxClose fuel rest).map (fun p => (p.1 + 1, p.2))
        else (findJsxClose fuel rest).map (fun p => (p.1 + 1, p.2))
      | [] => (findJsxClose fuel rest).map (fun p => (p.1 + 1, p.2))
    else (findJsxClose fuel rest).map (fun p => (p.1 + 1, p.2))

/-- Scanner for the paired component replace
`/<[A-Z][a-zA-Z]*[^>]*>[\s\S]*?<\/[A-Z][a-zA-Z]*>/g` with the empty
string. -/
def jsxPairAux : Nat → List Char → List Char
  | 0, l => l
  | _ + 1, [] => []
  | fuel + 1, c :: rest =>
    if c = '<' then
      let u := rest.takeWhile (fun x => x ≠ '>')
      if !u.isEmpty &&
          (match u.head? with | some h => isUpperCh h | none => false) &&
          (rest.drop u.length).head? = some '>' then
        let after := rest.drop (u.length + 1)
        match findJsxClose after.length after with
        | some (i, len) => jsxPairAux fuel (after.drop (i + len))
        | none => c :: jsxPairAux fuel rest
      else c :: jsxPairAux fuel rest
    else c :: jsxPairAux fuel rest

/-- Scanner for the blank-line collapse `/\n{3,}/g` to exactly two
newlines. -/
def cnlAux : Nat → List Char → List Char
  | 0, l => l
  | _ + 1, [] => []
  | fuel + 1, c :: rest =>
    if c = '\n' then
      let run := rest.takeWhile (fun x => x = '\n')
      if 2 ≤ run.length then
        '\n' :: '\n' :: cnlAux fuel (rest.drop run.length)
      else c :: (run ++ cnlAux fuel (rest.drop run.length))
    else c :: cnlAux fuel rest

/-- `cleanMarkdownContent(content)` of `build-rag-index.js` (the
`cleanMarkdown` of the embeddings script is identical): the chain of
replaces followed by a trim. -/
def cleanMarkdownContent (content : List Char) : List Char :=
  let s1 := scbAux content.length content
  let s2 := sicAux s1.length s1
  let s3 := imgAux s2.length s2
  let s4 := linkAux s3.length s3
  let s5 := tagAux s4.length s4
  let s6 := lineKwAux ("import".toList) s5.length true s5
  let s7 := lineKwAux ("export".toList) s6.length true s6
  let s8 := jsxSelfAux s7.length s7
  let s9 := jsxPairAux s8.length s8
  jsTrim (cnlAux s9.length s9)

/-- Replace backslashes by forward slashes, as `.replace(/\\/g, '/')`. -/
def replBackslash (l : List Char) : List Char :=
  l.map (fun c => if c = Char.ofNat 92 then '/' else c)

/-- Drop the last `n` elements. -/
def dropLastN {α : Type} (n : Nat) (l : List α) : List α :=
  l.take (l.length - n)

/-- Case-insensitive suffix test; the given suffix is lower case. -/
def endsWithCI (suffix l : List Char) : Bool :=
  suffix.isSuffixOf (l.map Char.toLower)

/-- Strip a Markdown extension, as `.replace(/\.(md|mdx)$/i, '')`. -/
def stripMdExt (l : List Char) : List Char :=
  if endsWithCI (".mdx".toList) l then dropLastN 4 l
  else if endsWithCI (".md".toList) l then dropLastN 3 l
  else l

/-- Strip a trailing `/index`, as `.replace(/\/index$/, '')`. -/
def stripIndexSuffix (l : List Char) : List Char :=
  if ("/index".toList).isSuffixOf l then dropLastN 6 l else l

/-- The final path segment, after the last forward slash. -/
def lastSegment (p : List Char) : List Char :=
  (p.reverse.takeWhile (fun c => c ≠ '/')).reverse

/-- Models Node `path.extname`: the suffix of the final segment from its
last dot, empty when there is no dot or the only dot is leading. -/
def extnameOf (p : List Char) : List Char :=
  let b := lastSegment p
  let r := b.reverse.takeWhile (fun c => c ≠ '.')
  if r.length + 1 ≤ b.length then
    if r.length + 1 = b.length then [] else '.' :: r.reverse
  else []

/-- Models `path.basename(p, path.extname(p))`: the final segment with its
extension removed. -/
def baseNoExt (p : List Char) : List Char :=
  let b := lastSegment p
  let e := extnameOf p
  if e.isEmpty then b else dropLastN e.length b

/-- Models Node `path.relative(base, p)` for the ancestor-prefix case
exercised by the builder (the file path extends the base directory joined
with a slash); other inputs are returned unchanged. -/
def pathRelative (base p : List Char) : List Char :=
  if (base ++ ['/']).isPrefixOf p then p.drop (base.length + 1) else p

/-- JavaScript falsy-or on an optional string: an absent or empty value
falls back to the default, as in `metadata.title || fallback`. -/
def orNonEmpty (v : Option (List Char)) (d : List Char) : List Char :=
  match v with
  | some x => if x.isEmpty then d else x
  | none => d

/-- The configuration fields of the builders that the indexing pipeline
reads. -/
structure BuildConfig where
  chunkSize : Nat
  chunkOverlap : Nat
deriving DecidableEq

/-- A chunk record of the keyword-mode index, with the fields written by
`processFile` of `build-rag-index.js` (`sectionLabel` embeds the source
field named `section`, a reserved word here). -/
structure ChunkRec where
  id : List Char
  source : List Char
  slug : List Char
  title : List Char
  sectionLabel : List Char
  content : List Char
  keywords : List (List Char)
  chunkIndex : Nat
  totalChunks : Nat
deriving DecidableEq

/-- The indexed map `arr.map((x, index) => f(index, x))`, carrying the
running index. -/
def mapIdxFrom {α β : Type} (f : Nat → α → β) : Nat → List α → List β
  | _, [] => []
  | i, a :: as => f i a :: mapIdxFrom f (i + 1) as

/-- The record built for one chunk by the map at the end of `processFile`
of `build-rag-index.js`; `total` is the length of the chunk list. -/
def chunkRecBuilder (filePath raw : List Char) (config : BuildConfig)
    (baseDir : List Char) (total : Nat) (index : Nat) (chunk : List Char) :
    ChunkRec :=
  let pm := parseFrontmatter raw
  let relativePath := replBackslash (pathRelative baseDir filePath)
  { id := generateChunkId filePath index
    source := relativePath
    slug := stripIndexSuffix (stripMdExt relativePath)
    title := orNonEmpty (pm.1.lookup ("title".toList)) (baseNoExt filePath)
    sectionLabel := orNonEmpty (pm.1.lookup ("sidebar_label".toList))
      (orNonEmpty (pm.1.lookup ("title".toList)) [])
    content := chunk
    keywords := extractKeywords chunk 10
    chunkIndex := index
    totalChunks := total }

/-- `processFile(filePath, config, baseDir)` of `build-rag-index.js`, with
the file contents `raw` passed explicitly instead of read from disk. -/
def processFile (filePath raw : List Char) (config : BuildConfig)
    (baseDir : List Char) : List ChunkRec :=
  let cleanedContent := cleanMarkdownContent (parseFrontmatter raw).2
  if cleanedContent.isEmpty || cleanedContent.length < 50 then []
  else
    let chunks := splitIntoChunks cleanedContent config.chunkSize config.chunkOverlap
    mapIdxFrom (chunkRecBuilder filePath raw config baseDir chunks.length) 0 chunks

/-- One input file of a build run: its path, contents, and the base
directory `main` resolves for it (the docs or the blog root). -/
structure FileEntry where
  path : List Char
  contents : List Char
  base : List Char
deriving DecidableEq

/-- The keyword-mode index assembled by `main` of `build-rag-index.js`,
restricted to the fields the claims are about (the version string and
generation timestamp are omitted, and the docs/blog file-count breakdown
is summarised by `totalFiles`). -/
structure KwIndex where
  totalFiles : Nat
  totalChunks : Nat
  chunks : List ChunkRec
deriving DecidableEq

/-- All chunk records of a keyword-mode build, in file order. -/
def allChunks (files : List FileEntry) (config : BuildConfig) : List ChunkRec :=
  (files.map (fun f => processFile f.path f.contents config f.base)).flatten

/-- The file-processing loop of `main` of `build-rag-index.js`: process
every found file in order and concatenate the resulting chunk records. -/
def buildIndex (files : List FileEntry) (config : BuildConfig) : KwIndex :=
  { totalFiles := files.length
    totalChunks := (allChunks files config).length
    chunks := allChunks files config }

/-- A chunk record of the embedding-mode index; `embedding` is `none`
while the slot still holds JavaScript `null`.  Vector entries are
modelled as integers, since no claim computes with their values. -/
structure EmbChunkRec where
  id : List Char
  source : List Char
  slug : List Char
  title : List Char
  content : List Char
  chunkIndex : Nat
  totalChunks : Nat
  embedding : Option (List Int)
deriving DecidableEq

/-- The record built for one chunk by the map at the end of `processFile`
of `build-rag-index-embeddings.js`; the embedding slot starts as `null`. -/
def embChunkRecBuilder (filePath raw : List Char) (config : BuildConfig)
    (baseDir : List Char) (total : Nat) (index : Nat) (chunk : List Char) :
    EmbChunkRec :=
  let pm := parseFrontmatterEmb raw
  let relativePath := replBackslash (pathRelative baseDir filePath)
  { id := generateChunkId filePath index
    source := relativePath
    slug := stripIndexSuffix (stripMdExt relativePath)
    title := orNonEmpty (pm.1.lookup ("title".toList)) (baseNoExt filePath)
    content := chunk
    chunkIndex := index
    totalChunks := total
    embedding := none }

/-- `processFile` of `build-rag-index-embeddings.js`, again with the file
contents passed explicitly; every produced record has a `null` embedding. -/
def processFileEmb (filePath raw : List Char) (config : BuildConfig)
    (baseDir : List Char) : List EmbChunkRec :=
  let cleaned := cleanMarkdownContent (parseFrontmatterEmb raw).2
  if cleaned.isEmpty || cleaned.length < 50 then []
  else
    let chunks := splitIntoChunks cleaned config.chunkSize config.chunkOverlap
    mapIdxFrom (embChunkRecBuilder filePath raw config baseDir chunks.length) 0 chunks

/-- The embedding phase of `main`: one attempt per chunk against the
external service, modelled by an oracle indexed by chunk position.  A
success fills the chunk's own result slot; a failure is caught and
recorded with the chunk id and the error message.  Batching only groups
these independent per-chunk attempts, so the phase is modelled
sequentially. -/
def runEmbed (oracle : Nat → Except (List Char) (List Int)) :
    Nat → List EmbChunkRec → List EmbChunkRec × List (List Char × List Char)
  | _, [] => ([], [])
  | i, c :: cs =>
    let r := runEmbed oracle (i + 1) cs
    match oracle i with
    | .ok v => ({ c with embedding := some v } :: r.1, r.2)
    | .error e => (c :: r.1, (c.id, e) :: r.2)

/-- The embedding-mode index, restricted to the fields the claims are
about. -/
structure EmbIndex where
  totalFiles : Nat
  totalChunks : Nat
  successfulChunks : Nat
  failedChunks : Nat
  chunks : List EmbChunkRec
deriving DecidableEq

/-- All chunk records of an embedding-mode build, in file order. -/
def allChunksEmb (files : List FileEntry) (config : BuildConfig) :
    List EmbChunkRec :=
  (files.map (fun f => processFileEmb f.path f.contents config f.base)).flatten

/-- `main` of `build-rag-index-embeddings.js` minus the filesystem and the
service client: process the files, attempt every embedding, keep the
chunks whose embedding is not `null`, and record the statistics. -/
def buildEmbIndex (files : List FileEntry) (config : BuildConfig)
    (oracle : Nat → Except (List Char) (List Int)) : EmbIndex :=
  let r := runEmbed oracle 0 (allChunksEmb files config)
  let successful := r.1.filter (fun c => c.embedding.isSome)
  { totalFiles := files.length
    totalChunks := (allChunksEmb files config).length
    successfulChunks := successful.length
    failedChunks := r.2.length
    chunks := successful }

/-- Whether the embedding attempt for the chunk at a given position fails. -/
def embedFails (oracle : Nat → Except (List Char) (List Int)) (j : Nat) : Bool :=
  match oracle j with
  | .ok _ => false
  | .error _ => true

/-- Hexadecimal digit character (lower case), for the id format claim. -/
def isHexCh (c : Char) : Bool :=
  ('0' ≤ c && c ≤ '9') || ('a' ≤ c && c ≤ 'f')

/-- Spec-side quote removal for the basic builder, following the spec
words: remove a single matching pair of quote characters, one at each
end; a value that is a single quote character degenerates to empty. -/
def stripQuotesPairSpec (v : List Char) : List Char :=
  match v with
  | [] => []
  | [c] => if isQuoteCh c then [] else [c]
  | c :: rest =>
    if isQuoteCh c && rest.getLast? = some c then rest.dropLast else v

/-- Spec-side removal of one leading quote character. -/
def dropLeadQuoteSpec (v : List Char) : List Char :=
  match v with
  | c :: rest => if isQuoteCh c then rest else v
  | [] => []

/-- Spec-side removal of one trailing quote character. -/
def dropTrailQuoteSpec (v : List Char) : List Char :=
  (dropLeadQuoteSpec v.reverse).reverse

/-- Spec-side quote removal for the embeddings builder: strip one leading
and one trailing quote character, independently of each other. -/
def stripQuotesEndsSpec (v : List Char) : List Char :=
  dropTrailQuoteSpec (dropLeadQuoteSpec v)

/-- The buffer the chunker accumulates when it never closes a chunk: each
sentence appended with the joining space. -/
def appendJoin (cur : List Char) (ss : List (List Char)) : List Char :=
  ss.foldl (fun cur s => cur ++ (if cur.isEmpty then [] else [' ']) ++ s) cur

/-- Shape invariant of an emitted chunk, for the amended size claim: the
chunk fits in `sz + 1` characters (the size check does not count the
space that joins the final appended sentence), or it is a single trimmed
sentence, or it is the word-overlap tail of a previous buffer joined with
a single sentence (the freshly seeded buffer is never re-checked against
the maximum before being closed). -/
def ChunkWithin (sentences : List (List Char)) (sz ov : Nat)
    (c : List Char) : Prop :=
  c.length ≤ sz + 1 ∨
  (∃ s ∈ sentences, c = jsTrim s) ∨
  (∃ buf s, s ∈ sentences ∧ c = jsTrim (overlapSeed buf ov ++ ' ' :: s))

/-- Shape invariant of the running buffer of the chunker loop. -/
def BufWithin (sentences : List (List Char)) (sz ov : Nat)
    (cur : List Char) : Prop :=
  cur = [] ∨ cur.length ≤ sz + 1 ∨ cur ∈ sentences ∨
  (∃ buf s, s ∈ sentences ∧ cur = overlapSeed buf ov ++ ' ' :: s)

/-- The number of occurrences of a token in a token list. -/
def occCount (l : List (List Char)) (w : List Char) : Nat :=
  match l with
  | [] => 0
  | a :: rest => (if a = w then 1 else 0) + occCount rest w

/-- The index of the first occurrence of a token in a token list (the
list's length when absent). -/
def firstIdx (l : List (List Char)) (w : List Char) : Nat :=
  match l with
  | [] => 0
  | a :: rest => if a = w then 0 else firstIdx rest w + 1

/-- Invariant of the frequency table after processing a prefix of the
token stream: every key is a processed token and vice versa, each count
is the occurrence count so far, and keys are distinct and listed in
first-occurrence order. -/
def FreqInvariant (processed : List (List Char))
    (m : List (List Char × Nat)) : Prop :=
  (∀ p ∈ m, p.1 ∈ processed) ∧
  (∀ w ∈ processed, ∃ p ∈ m, p.1 = w) ∧
  (∀ p ∈ m, p.2 = occCount processed p.1) ∧
  (m.map Prod.fst).Nodup ∧
  m.Pairwise (fun p q => firstIdx processed p.1 < firstIdx processed q.1)

/-- The enumeration order of two frequency entries under `Object.entries`:
array-index keys come first (in ascending numeric order among
themselves), and the remaining keys follow in first-occurrence order of
the token stream `toks`. -/
def EntryOrder (toks : List (List Char)) (p q : List Char × Nat) : Prop :=
  (isArrayIndexKey q.1 = true → isArrayIndexKey p.1 = true) ∧
  (isArrayIndexKey p.1 = true → isArrayIndexKey q.1 = true →
    digitsToNat p.1 ≤ digitsToNat q.1) ∧
  (isArrayIndexKey p.1 = false → isArrayIndexKey q.1 = false →
    firstIdx toks p.1 < firstIdx toks q.1)

/-- The ordering established by the stable descending-count sort: counts
non-increasing, with equal counts kept in the `Object.entries` order of
`EntryOrder`. -/
def DescD (toks : List (List Char)) (p q : List Char × Nat) : Prop :=
  q.2 ≤ p.2 ∧ (p.2 = q.2 → EntryOrder toks p q)

/-- The number of chunk records one input file contributes. -/
def fileChunkCount (f : FileEntry) (config : BuildConfig) : Nat :=
  (processFile f.path f.contents config f.base).length

/-- The (file path, chunk index) pairs from which the ids of a build are
derived, in index order. -/
def chunkIdPairs (files : List FileEntry) (config : BuildConfig) :
    List (List Char × Nat) :=
  (files.map (fun f =>
    (List.range (fileChunkCount f config)).map (fun i => (f.path, i)))).flatten

end NovaRag

namespace NovaRag

theorem mapIdxFrom_length {α β : Type} (f : Nat → α → β) (i : Nat) (l : List α) :
    (mapIdxFrom f i l).length = l.length := by
  induction l generalizing i with
  | nil => rfl
  | cons a as ih => simp [mapIdxFrom, ih]

theorem mapIdxFrom_get {α β : Type} (f : Nat → α → β) (i : Nat) (l : List α)
    (j : Nat) (h : j < (mapIdxFrom f i l).length) :
    (mapIdxFrom f i l).get ⟨j, h⟩ =
      f (i + j) (l.get ⟨j, by rw [← mapIdxFrom_length f i l]; exact h⟩) := by
  induction l generalizing i j with
  | nil => simp [mapIdxFrom] at h
  | cons a as ih =>
    cases j with
    | zero => simp [mapIdxFrom]
    | succ n =>
      have hn : n < (mapIdxFrom f (i + 1) as).length := by
        simpa [mapIdxFrom] using h
      have := ih (i + 1) n hn
      simp only [mapIdxFrom, List.get_cons_succ] at this ⊢
      rw [this]
      congr 1
      omega

theorem mapIdxFrom_forall {α β : Type} (f : Nat → α → β) (P : β → Prop)
    (hf : ∀ j a, P (f j a)) (i : Nat) (l : List α) :
    ∀ b ∈ mapIdxFrom f i l, P b := by
  induction l generalizing i with
  | nil => simp [mapIdxFrom]
  | cons a as ih =>
    intro b hb
    rw [mapIdxFrom, List.mem_cons] at hb
    rcases hb with hb | hb
    · exact hb ▸ hf i a
    · exact ih (i + 1) b hb

theorem mapIdxFrom_map_range' {α β γ : Type} (f : Nat → α → β) (g : β → γ)
    (h : Nat → γ) (hg : ∀ j a, g (f j a) = h j) (i : Nat) (l : List α) :
    (mapIdxFrom f i l).map g = (List.range' i l.length).map h := by
  induction l generalizing i with
  | nil => rfl
  | cons a as ih => simp [mapIdxFrom, List.range'_succ, hg, ih]

theorem splitSentences_test1 :
    splitSentences "aaaa. bbbb. cccc.".toList =
      ["aaaa.".toList, "bbbb.".toList, "cccc.".toList] := by decide

theorem splitIntoChunks_test1 :
    splitIntoChunks "aaaa. bbbb. cccc.".toList 10 200 =
      ["aaaa. bbbb.".toList, "aaaa. bbbb. cccc.".toList] := by decide

theorem splitIntoChunks_test2 :
    splitIntoChunks " ".toList 1000 200 = [] := by decide

theorem splitIntoChunks_test3 :
    splitIntoChunks "".toList 1000 200 = [] := by decide

theorem extractKeywords_test1 :
    extractKeywords "foo 123".toList 10 = ["123".toList, "foo".toList] := by
  decide

theorem extractKeywords_test2 :
    extractKeywords "alpha beta alpha the of x".toList 10 =
      ["alpha".toList, "beta".toList] := by decide

theorem md5_test_empty :
    md5Hex (strBytes "".toList) = "d41d8cd98f00b204e9800998ecf8427e".toList := by
  decide

theorem md5_test_abc :
    md5Hex (strBytes "abc".toList) = "900150983cd24fb0d6963f7d28e17f72".toList := by
  decide

theorem generateChunkId_test :
    generateChunkId "docs/a.md".toList 0 = "e0ac509b".toList := by decide

theorem generateChunkId_collision_test :
    generateChunkId "docs/p153571.md".toList 0 =
      generateChunkId "docs/p167781.md".toList 0 := by decide

theorem fmMatch_test1 :
    fmMatch "---\ntitle: \"Intro\"\n---\nHello world.".toList =
      some ("title: \"Intro\"".toList, "Hello world.".toList) := by decide

theorem parseFrontmatter_test1 :
    (parseFrontmatter "---\ntitle: \"Intro\"\n---\nHello world.".toList).1 =
      [("title".toList, "Intro".toList)] := by decide

theorem parseFmLineEmb_test1 :
    parseFmLineEmb ("title: ".toList ++ quoteD :: "abc".toList ++ [quoteS]) =
      some ("title".toList, "abc".toList) := by decide

theorem cleanMarkdownContent_test1 :
    cleanMarkdownContent "Hello world. This is a test.".toList =
      "Hello world. This is a test.".toList := by decide

theorem cleanMarkdownContent_test2 :
    cleanMarkdownContent "See [the docs](https://x.y) now.".toList =
      "See the docs now.".toList := by decide

theorem processFile_test_short :
    processFile ("docs/a.md".toList)
      ("---\ntitle: \"Intro\"\n---\nHello world. This is a test.".toList)
      ⟨1000, 200⟩ ("docs".toList) = [] := by decide

theorem parseFrontmatterEmb_body (c : List Char) :
    (parseFrontmatterEmb c).2 = (parseFrontmatter c).2 := by
  unfold parseFrontmatter parseFrontmatterEmb
  cases fmMatch c with
  | none => rfl
  | some p => rfl

theorem mapIdxFrom_get? {α β : Type} (f : Nat → α → β) (i : Nat) (l : List α)
    (j : Nat) :
    (mapIdxFrom f i l).get? j = (l.get? j).map (f (i + j)) := by
  induction l generalizing i j with
  | nil => simp [mapIdxFrom]
  | cons a as ih =>
    cases j with
    | zero => simp [mapIdxFrom]
    | succ n =>
      have h1 := ih (i + 1) n
      have h2 : i + 1 + n = i + (n + 1) := by omega
      simp only [mapIdxFrom, List.get?_cons_succ]
      rw [h1, h2]

theorem processFile_eq_ite (filePath raw : List Char) (config : BuildConfig)
    (baseDir : List Char) :
    processFile filePath raw config baseDir =
      if (cleanMarkdownContent (parseFrontmatter raw).2).isEmpty
          || decide ((cleanMarkdownContent (parseFrontmatter raw).2).length < 50) then
        []
      else
        mapIdxFrom
          (chunkRecBuilder filePath raw config baseDir
            (splitIntoChunks (cleanMarkdownContent (parseFrontmatter raw).2)
              config.chunkSize config.chunkOverlap).length)
          0
          (splitIntoChunks (cleanMarkdownContent (parseFrontmatter raw).2)
            config.chunkSize config.chunkOverlap) := rfl

theorem processFileEmb_eq_ite (filePath raw : List Char) (config : BuildConfig)
    (baseDir : List Char) :
    processFileEmb filePath raw config baseDir =
      if (cleanMarkdownContent (parseFrontmatterEmb raw).2).isEmpty
          || decide ((cleanMarkdownContent (parseFrontmatterEmb raw).2).length < 50) then
        []
      else
        mapIdxFrom
          (embChunkRecBuilder filePath raw config baseDir
            (splitIntoChunks (cleanMarkdownContent (parseFrontmatterEmb raw).2)
              config.chunkSize config.chunkOverlap).length)
          0
          (splitIntoChunks (cleanMarkdownContent (parseFrontmatterEmb raw).2)
            config.chunkSize config.chunkOverlap) := rfl

theorem processFile_cond_of_get? (filePath raw : List Char)
    (config : BuildConfig) (baseDir : List Char) (j : Nat) (r : ChunkRec)
    (h : (processFile filePath raw config baseDir).get? j = some r) :
    ((cleanMarkdownContent (parseFrontmatter raw).2).isEmpty
      || decide ((cleanMarkdownContent (parseFrontmatter raw).2).length < 50)) = false := by
  cases hb : ((cleanMarkdownContent (parseFrontmatter raw).2).isEmpty
      || decide ((cleanMarkdownContent (parseFrontmatter raw).2).length < 50)) with
  | false => rfl
  | true =>
    rw [processFile_eq_ite, if_pos hb] at h
    simp at h

theorem processFile_get?_eq (filePath raw : List Char) (config : BuildConfig)
    (baseDir : List Char) (j : Nat) (r : ChunkRec)
    (h : (processFile filePath raw config baseDir).get? j = some r) :
    ∃ chunk,
      (splitIntoChunks (cleanMarkdownContent (parseFrontmatter raw).2)
        config.chunkSize config.chunkOverlap).get? j = some chunk ∧
      r = chunkRecBuilder filePath raw config baseDir
        (splitIntoChunks (cleanMarkdownContent (parseFrontmatter raw).2)
          config.chunkSize config.chunkOverlap).length j chunk := by
  have hb := processFile_cond_of_get? filePath raw config baseDir j r h
  rw [processFile_eq_ite, if_neg (by simp [hb]), mapIdxFrom_get?] at h
  rcases Option.map_eq_some'.mp h with ⟨chunk, hc, hr⟩
  exact ⟨chunk, hc, by simpa using hr.symm⟩

theorem processFile_length_of_get? (filePath raw : List Char)
    (config : BuildConfig) (baseDir : List Char) (j : Nat) (r : ChunkRec)
    (h : (processFile filePath raw config baseDir).get? j = some r) :
    (processFile filePath raw config baseDir).length =
      (splitIntoChunks (cleanMarkdownContent (parseFrontmatter raw).2)
        config.chunkSize config.chunkOverlap).length := by
  have hb := processFile_cond_of_get? filePath raw config baseDir j r h
  rw [processFile_eq_ite, if_neg (by simp [hb]), mapIdxFrom_length]

theorem chunkRecBuilder_fields (filePath raw : List Char)
    (config : BuildConfig) (baseDir : List Char) (total index : Nat)
    (chunk : List Char) :
    (chunkRecBuilder filePath raw config baseDir total index chunk).chunkIndex
        = index ∧
    (chunkRecBuilder filePath raw config baseDir total index chunk).totalChunks
        = total ∧
    (chunkRecBuilder filePath raw config baseDir total index chunk).id
        = generateChunkId filePath index := by
  refine ⟨rfl, rfl, rfl⟩

theorem processFile_get_numbering (filePath raw : List Char)
    (config : BuildConfig) (baseDir : List Char) (j : Nat) (r : ChunkRec)
    (h : (processFile filePath raw config baseDir).get? j = some r) :
    r.chunkIndex = j ∧
    r.totalChunks = (processFile filePath raw config baseDir).length := by
  rcases processFile_get?_eq filePath raw config baseDir j r h with ⟨chunk, hc, rfl⟩
  obtain ⟨h1, h2, h3⟩ := chunkRecBuilder_fields filePath raw config baseDir _ j chunk
  refine ⟨h1, ?_⟩
  rw [processFile_length_of_get? filePath raw config baseDir j _ h, h2]

theorem processFileEmb_cond_of_get? (filePath raw : List Char)
    (config : BuildConfig) (baseDir : List Char) (j : Nat) (r : EmbChunkRec)
    (h : (processFileEmb filePath raw config baseDir).get? j = some r) :
    ((cleanMarkdownContent (parseFrontmatterEmb raw).2).isEmpty
      || decide ((cleanMarkdownContent (parseFrontmatterEmb raw).2).length < 50)) = false := by
  cases hb : ((cleanMarkdownContent (parseFrontmatterEmb raw).2).isEmpty
      || decide ((cleanMarkdownContent (parseFrontmatterEmb raw).2).length < 50)) with
  | false => rfl
  | true =>
    rw [processFileEmb_eq_ite, if_pos hb] at h
    simp at h

theorem processFileEmb_get?_eq (filePath raw : List Char) (config : BuildConfig)
    (baseDir : List Char) (j : Nat) (r : EmbChunkRec)
    (h : (processFileEmb filePath raw config baseDir).get? j = some r) :
    ∃ chunk,
      (splitIntoChunks (cleanMarkdownContent (parseFrontmatterEmb raw).2)
        config.chunkSize config.chunkOverlap).get? j = some chunk ∧
      r = embChunkRecBuilder filePath raw config baseDir
        (splitIntoChunks (cleanMarkdownContent (parseFrontmatterEmb raw).2)
          config.chunkSize config.chunkOverlap).length j chunk := by
  have hb := processFileEmb_cond_of_get? filePath raw config baseDir j r h
  rw [processFileEmb_eq_ite, if_neg (by simp [hb]), mapIdxFrom_get?] at h
  rcases Option.map_eq_some'.mp h with ⟨chunk, hc, hr⟩
  exact ⟨chunk, hc, by simpa using hr.symm⟩

theorem processFileEmb_length_of_get? (filePath raw : List Char)
    (config : BuildConfig) (baseDir : List Char) (j : Nat) (r : EmbChunkRec)
    (h : (processFileEmb filePath raw config baseDir).get? j = some r) :
    (processFileEmb filePath raw config baseDir).length =
      (splitIntoChunks (cleanMarkdownContent (parseFrontmatterEmb raw).2)
        config.chunkSize config.chunkOverlap).length := by
  have hb := processFileEmb_cond_of_get? filePath raw config baseDir j r h
  rw [processFileEmb_eq_ite, if_neg (by simp [hb]), mapIdxFrom_length]

theorem embChunkRecBuilder_fields (filePath raw : List Char)
    (config : BuildConfig) (baseDir : List Char) (total index : Nat)
    (chunk : List Char) :
    (embChunkRecBuilder filePath raw config baseDir total index chunk).chunkIndex
        = index ∧
    (embChunkRecBuilder filePath raw config baseDir total index chunk).totalChunks
        = total ∧
    (embChunkRecBuilder filePath raw config baseDir total index chunk).id
        = generateChunkId filePath index := by
  refine ⟨rfl, rfl, rfl⟩

theorem processFileEmb_get_numbering (filePath raw : List Char)
    (config : BuildConfig) (baseDir : List Char) (j : Nat) (r : EmbChunkRec)
    (h : (processFileEmb filePath raw config baseDir).get? j = some r) :
    r.chunkIndex = j ∧
    r.totalChunks = (processFileEmb filePath raw config baseDir).length := by
  rcases processFileEmb_get?_eq filePath raw config baseDir j r h with ⟨chunk, hc, rfl⟩
  obtain ⟨h1, h2, h3⟩ := embChunkRecBuilder_fields filePath raw config baseDir _ j chunk
  refine ⟨h1, ?_⟩
  rw [processFileEmb_length_of_get? filePath raw config baseDir j _ h, h2]

theorem processFile_mem_numbering (filePath raw : List Char)
    (config : BuildConfig) (baseDir : List Char) :
    ∀ c ∈ processFile filePath raw config baseDir,
      c.chunkIndex < c.totalChunks := by
  intro c hc
  rw [List.mem_iff_get?] at hc
  obtain ⟨j, hj⟩ := hc
  obtain ⟨h1, h2⟩ := processFile_get_numbering filePath raw config baseDir j c hj
  have hlt : j < (processFile filePath raw config baseDir).length :=
    List.get?_eq_some.mp hj |>.1
  omega

theorem runEmbed_fst_length (o : Nat → Except (List Char) (List Int))
    (i : Nat) (cs : List EmbChunkRec) :
    (runEmbed o i cs).1.length = cs.length := by
  induction cs generalizing i with
  | nil => rfl
  | cons c cs ih =>
    cases ho : o i <;> simp [runEmbed, ho, ih]

theorem runEmbed_snd_length (o : Nat → Except (List Char) (List Int))
    (i : Nat) (cs : List EmbChunkRec) :
    (runEmbed o i cs).2.length =
      (List.range' i cs.length).countP (embedFails o) := by
  induction cs generalizing i with
  | nil => rfl
  | cons c cs ih =>
    simp only [List.length_cons, List.range'_succ, List.countP_cons]
    cases ho : o i <;>
      simp [runEmbed, ho, ih, embedFails]

theorem runEmbed_filter_length (o : Nat → Except (List Char) (List Int))
    (i : Nat) (cs : List EmbChunkRec)
    (h : ∀ c ∈ cs, c.embedding = none) :
    ((runEmbed o i cs).1.filter (fun c => c.embedding.isSome)).length =
      cs.length - (List.range' i cs.length).countP (embedFails o) := by
  induction cs generalizing i with
  | nil => rfl
  | cons c cs ih =>
    have hcnt : (List.range' (i + 1) cs.length).countP (embedFails o) ≤ cs.length := by
      have h0 : (List.range' (i + 1) cs.length).countP (embedFails o) ≤
          (List.range' (i + 1) cs.length).length := List.countP_le_length _
      simpa using h0
    have hrest : ∀ x ∈ cs, x.embedding = none := fun x hx => h x (List.mem_cons_of_mem _ hx)
    have hc : c.embedding = none := h c (List.mem_cons_self c cs)
    simp only [List.length_cons, List.range'_succ, List.countP_cons]
    cases ho : o i with
    | ok v =>
      have : embedFails o i = false := by simp [embedFails, ho]
      simp [runEmbed, ho, ih _ hrest, this]
      omega
    | error e =>
      have : embedFails o i = true := by simp [embedFails, ho]
      simp [runEmbed, ho, hc, ih _ hrest, this]

theorem processFileEmb_embedding_none (filePath raw : List Char)
    (config : BuildConfig) (baseDir : List Char) :
    ∀ c ∈ processFileEmb filePath raw config baseDir, c.embedding = none := by
  intro c hc
  rw [List.mem_iff_get?] at hc
  obtain ⟨j, hj⟩ := hc
  rcases processFileEmb_get?_eq filePath raw config baseDir j c hj with ⟨chunk, hck, rfl⟩
  rfl

theorem allChunksEmb_none (files : List FileEntry) (config : BuildConfig) :
    ∀ c ∈ allChunksEmb files config, c.embedding = none := by
  intro c hc
  rw [allChunksEmb, List.mem_flatten] at hc
  obtain ⟨l, hl, hcl⟩ := hc
  rw [List.mem_map] at hl
  obtain ⟨f, hf, rfl⟩ := hl
  exact processFileEmb_embedding_none _ _ _ _ c hcl

theorem buildIndex_chunks_eq (files : List FileEntry) (config : BuildConfig) :
    (buildIndex files config).chunks = allChunks files config := rfl

theorem buildEmbIndex_proj (files : List FileEntry) (config : BuildConfig)
    (oracle : Nat → Except (List Char) (List Int)) :
    (buildEmbIndex files config oracle).totalChunks
        = (allChunksEmb files config).length ∧
    (buildEmbIndex files config oracle).failedChunks
        = (runEmbed oracle 0 (allChunksEmb files config)).2.length ∧
    (buildEmbIndex files config oracle).chunks
        = (runEmbed oracle 0 (allChunksEmb files config)).1.filter
            (fun c => c.embedding.isSome) ∧
    (buildEmbIndex files config oracle).successfulChunks
        = (buildEmbIndex files config oracle).chunks.length :=
  ⟨rfl, rfl, rfl, rfl⟩

/-- C2: in an embedding-mode build with N produced chunks of which M fail
to embed, the written index carries exactly N - M chunk records,
`stats.failedChunks` equals M, no record with a failed (still `null`)
embedding appears in the index, and the build function is total — it
returns an index for every oracle, so no per-chunk failure aborts the
run. -/
theorem c2_embedding_failures (files : List FileEntry) (config : BuildConfig)
    (oracle : Nat → Except (List Char) (List Int)) :
    (buildEmbIndex files config oracle).failedChunks =
      (List.range (buildEmbIndex files config oracle).totalChunks).countP
        (embedFails oracle) ∧
    (buildEmbIndex files config oracle).chunks.length =
      (buildEmbIndex files config oracle).totalChunks -
        (List.range (buildEmbIndex files config oracle).totalChunks).countP
          (embedFails oracle) ∧
    (buildEmbIndex files config oracle).successfulChunks =
      (buildEmbIndex files config oracle).chunks.length ∧
    ∀ c ∈ (buildEmbIndex files config oracle).chunks,
      c.embedding.isSome = true := by
  obtain ⟨hTot, hFail, hChunks, hSucc⟩ := buildEmbIndex_proj files config oracle
  refine ⟨?_, ?_, hSucc, ?_⟩
  · rw [hFail, hTot, runEmbed_snd_length, List.range_eq_range']
  · rw [hChunks, hTot, List.range_eq_range',
      runEmbed_filter_length oracle 0 (allChunksEmb files config)
        (allChunksEmb_none files config)]
  · intro c hc
    rw [hChunks] at hc
    simpa using (List.mem_filter.mp hc).2

/-- C4: a document whose cleaned body is shorter than 50 characters
contributes zero chunks, in both builder scripts. -/
theorem c4_short_content (filePath raw : List Char) (config : BuildConfig)
    (baseDir : List Char)
    (h : (cleanMarkdownContent (parseFrontmatter raw).2).length < 50) :
    processFile filePath raw config baseDir = [] ∧
    processFileEmb filePath raw config baseDir = [] := by
  have hd : decide ((cleanMarkdownContent (parseFrontmatter raw).2).length < 50)
      = true := decide_eq_true h
  constructor
  · rw [processFile_eq_ite, if_pos (by simp [hd])]
  · rw [processFileEmb_eq_ite,
      if_pos (by simp [parseFrontmatterEmb_body, hd])]

theorem c4_witness :
    (cleanMarkdownContent (parseFrontmatter ("hi there".toList)).2).length < 50 ∧
    processFile ("docs/a.md".toList) ("hi there".toList) ⟨1000, 200⟩
      ("docs".toList) = [] ∧
    processFileEmb ("docs/a.md".toList) ("hi there".toList) ⟨1000, 200⟩
      ("docs".toList) = [] := by
  have h : (cleanMarkdownContent (parseFrontmatter ("hi there".toList)).2).length
      < 50 := by decide
  exact ⟨h, (c4_short_content _ _ ⟨1000, 200⟩ _ h).1,
    (c4_short_content _ _ ⟨1000, 200⟩ _ h).2⟩

/-- C10: in both builders, the records a file contributes appear in chunk
order with `chunkIndex` equal to their 0-based position and `totalChunks`
equal to the number of records of that file, and consequently every chunk
record in an assembled index satisfies `chunkIndex < totalChunks`. -/
theorem c10_chunk_numbering :
    (∀ (filePath raw : List Char) (config : BuildConfig) (baseDir : List Char)
        (j : Nat) (r : ChunkRec),
        (processFile filePath raw config baseDir).get? j = some r →
        r.chunkIndex = j ∧
        r.totalChunks = (processFile filePath raw config baseDir).length) ∧
    (∀ (filePath raw : List Char) (config : BuildConfig) (baseDir : List Char)
        (j : Nat) (r : EmbChunkRec),
        (processFileEmb filePath raw config baseDir).get? j = some r →
        r.chunkIndex = j ∧
        r.totalChunks = (processFileEmb filePath raw config baseDir).length) ∧
    (∀ (files : List FileEntry) (config : BuildConfig),
        ∀ c ∈ (buildIndex files config).chunks,
          c.chunkIndex < c.totalChunks) := by
  refine ⟨processFile_get_numbering, processFileEmb_get_numbering, ?_⟩
  intro files config c hc
  rw [buildIndex_chunks_eq, allChunks, List.mem_flatten] at hc
  obtain ⟨l, hl, hcl⟩ := hc
  rw [List.mem_map] at hl
  obtain ⟨f, hf, rfl⟩ := hl
  exact processFile_mem_numbering f.path f.contents config f.base c hcl

theorem c10_witness :
    (processFile ("docs/a.md".toList)
        ("this is the same as that and it is not other than this. it is so very just now and we are all in.".toList)
        ⟨1000, 200⟩ ("docs".toList)).get? 0 =
      some
        { id := "e0ac509b".toList
          source := "a.md".toList
          slug := "a".toList
          title := "a".toList
          sectionLabel := []
          content := "this is the same as that and it is not other than this. it is so very just now and we are all in.".toList
          keywords := []
          chunkIndex := 0
          totalChunks := 1 } ∧
    ({ id := "e0ac509b".toList
       source := "a.md".toList
       slug := "a".toList
       title := "a".toList
       sectionLabel := []
       content := "this is the same as that and it is not other than this. it is so very just now and we are all in.".toList
       keywords := ([] : List (List Char))
       chunkIndex := 0
       totalChunks := 1 : ChunkRec}.chunkIndex = 0 ∧
     ({ id := "e0ac509b".toList
        source := "a.md".toList
        slug := "a".toList
        title := "a".toList
        sectionLabel := []
        content := "this is the same as that and it is not other than this. it is so very just now and we are all in.".toList
        keywords := ([] : List (List Char))
        chunkIndex := 0
        totalChunks := 1 : ChunkRec}).totalChunks =
       (processFile ("docs/a.md".toList)
         ("this is the same as that and it is not other than this. it is so very just now and we are all in.".toList)
         ⟨1000, 200⟩ ("docs".toList)).length) :=
  ⟨by decide, c10_chunk_numbering.1 _ _ _ _ 0 _ (by decide)⟩

/-- C3 counterexample: the spec scenario (frontmatter title "Intro", body
"Hello world. This is a test.", chunk size 1000) produces zero chunks,
not one, because the cleaned body has only 28 characters, below the
50-character minimum the spec itself fixes in its normalizer contract. -/
theorem c3_counterexample :
    (processFile ("docs/a.md".toList)
      ("---\ntitle: \"Intro\"\n---\nHello world. This is a test.".toList)
      ⟨1000, 200⟩ ("docs".toList)).length = 0 ∧
    (cleanMarkdownContent
      (parseFrontmatter
        ("---\ntitle: \"Intro\"\n---\nHello world. This is a test.".toList)).2).length
      = 28 := by
  exact ⟨by decide, by decide⟩

/-- C3 amended: the scenario as stated yields zero chunks (its body is
below the 50-character minimum); with the same frontmatter and a body of
at least 50 characters, the output is exactly one chunk with title
"Intro", content equal to the trimmed body, chunkIndex 0 and
totalChunks 1. -/
theorem c3_amended :
    processFile ("docs/a.md".toList)
      ("---\ntitle: \"Intro\"\n---\nHello world. This is a test.".toList)
      ⟨1000, 200⟩ ("docs".toList) = [] ∧
    (processFile ("docs/a.md".toList)
      ("---\ntitle: \"Intro\"\n---\nHello world. This is a test of a body long enough to index.".toList)
      ⟨1000, 200⟩ ("docs".toList)).map
        (fun r => (r.title, r.content, r.chunkIndex, r.totalChunks)) =
      [("Intro".toList,
        "Hello world. This is a test of a body long enough to index.".toList,
        0, 1)] := by
  exact ⟨by decide, by decide⟩

theorem hexDigitCh_fin_hex : ∀ m : Fin 16, isHexCh (hexDigitCh m.val) = true := by
  decide

theorem hexDigitCh_mod16 (n : Nat) : isHexCh (hexDigitCh (n % 16)) = true :=
  hexDigitCh_fin_hex ⟨n % 16, Nat.mod_lt n (by decide)⟩

theorem byteHex_hex (b : Nat) : ∀ c ∈ byteHex b, isHexCh c = true := by
  intro c hc
  simp only [byteHex, List.mem_cons, List.not_mem_nil, or_false] at hc
  rcases hc with rfl | rfl
  · exact hexDigitCh_mod16 (b / 16)
  · exact hexDigitCh_mod16 b

theorem md5Digest_length (msg : List Nat) : (md5Digest msg).length = 16 := by
  simp [md5Digest, wordLEbytes]

theorem flatten_map_byteHex_length (l : List Nat) :
    ((l.map byteHex).flatten).length = 2 * l.length := by
  induction l with
  | nil => rfl
  | cons b bs ih =>
    simp only [List.map_cons, List.flatten_cons, List.length_append, ih,
      List.length_cons, byteHex]
    simp
    omega

theorem md5Hex_length (msg : List Nat) : (md5Hex msg).length = 32 := by
  rw [md5Hex, flatten_map_byteHex_length, md5Digest_length]

theorem md5Hex_hex (msg : List Nat) : ∀ c ∈ md5Hex msg, isHexCh c = true := by
  intro c hc
  rw [md5Hex, List.mem_flatten] at hc
  obtain ⟨l, hl, hcl⟩ := hc
  rw [List.mem_map] at hl
  obtain ⟨b, hb, rfl⟩ := hl
  exact byteHex_hex b c hcl

theorem generateChunkId_length (filePath : List Char) (chunkIndex : Nat) :
    (generateChunkId filePath chunkIndex).length = 8 := by
  rw [generateChunkId, List.length_take, md5Hex_length]
  decide

theorem generateChunkId_hex (filePath : List Char) (chunkIndex : Nat) :
    ∀ c ∈ generateChunkId filePath chunkIndex, isHexCh c = true := by
  intro c hc
  exact md5Hex_hex _ c (List.take_subset _ _ hc)

/-- C6: chunk id generation is deterministic — the id is a function of the
source file path and chunk index alone, so unchanged input reproduces the
same ids — and every id, in isolation and in every assembled index, is an
8-character lower-case hexadecimal string. -/
theorem c6_chunk_ids :
    (∀ (filePath : List Char) (chunkIndex : Nat),
      generateChunkId filePath chunkIndex = generateChunkId filePath chunkIndex) ∧
    (∀ (filePath : List Char) (chunkIndex : Nat),
      (generateChunkId filePath chunkIndex).length = 8 ∧
      ∀ c ∈ generateChunkId filePath chunkIndex, isHexCh c = true) ∧
    (∀ (files : List FileEntry) (config : BuildConfig),
      ∀ r ∈ (buildIndex files config).chunks,
        r.id.length = 8 ∧ ∀ c ∈ r.id, isHexCh c = true) := by
  refine ⟨fun _ _ => rfl,
    fun p i => ⟨generateChunkId_length p i, generateChunkId_hex p i⟩, ?_⟩
  intro files config r hr
  rw [buildIndex_chunks_eq, allChunks, List.mem_flatten] at hr
  obtain ⟨l, hl, hrl⟩ := hr
  rw [List.mem_map] at hl
  obtain ⟨f, hf, rfl⟩ := hl
  rw [List.mem_iff_get?] at hrl
  obtain ⟨j, hj⟩ := hrl
  rcases processFile_get?_eq f.path f.contents config f.base j r hj
    with ⟨chunk, hck, rfl⟩
  obtain ⟨h1, h2, h3⟩ := chunkRecBuilder_fields f.path f.contents config f.base _ j chunk
  rw [h3]
  exact ⟨generateChunkId_length f.path j, generateChunkId_hex f.path j⟩

theorem c6_witness :
    ('e' ∈ generateChunkId ("docs/a.md".toList) 0) ∧
    isHexCh 'e' = true ∧
    (generateChunkId ("docs/a.md".toList) 0).length = 8 :=
  ⟨by decide, (c6_chunk_ids.2.1 ("docs/a.md".toList) 0).2 'e' (by decide),
    (c6_chunk_ids.2.1 ("docs/a.md".toList) 0).1⟩

theorem jsTrim_length_le (l : List Char) : (jsTrim l).length ≤ l.length := by
  have h1 : (((l.dropWhile jsWs).reverse).dropWhile jsWs).length ≤
      ((l.dropWhile jsWs).reverse).length :=
    List.Sublist.length_le (List.dropWhile_sublist _)
  have h2 : (l.dropWhile jsWs).length ≤ l.length :=
    List.Sublist.length_le (List.dropWhile_sublist _)
  simp only [jsTrim, List.length_reverse] at h1 ⊢
  omega

theorem chunkStep_eq (sz ov : Nat) (st : List (List Char) × List Char)
    (s : List Char) :
    chunkStep sz ov st s =
      if st.2.length + s.length > sz ∧ st.2.length > 0 then
        (st.1 ++ [jsTrim st.2], overlapSeed st.2 ov ++ ' ' :: s)
      else
        (st.1, st.2 ++ (if st.2.isEmpty then [] else [' ']) ++ s) := rfl

theorem splitIntoChunks_eq (content : List Char) (sz ov : Nat) :
    splitIntoChunks content sz ov =
      if (jsTrim ((splitSentences content).foldl (chunkStep sz ov)
          ([], [])).2).isEmpty then
        ((splitSentences content).foldl (chunkStep sz ov) ([], [])).1
      else
        ((splitSentences content).foldl (chunkStep sz ov) ([], [])).1 ++
          [jsTrim ((splitSentences content).foldl (chunkStep sz ov)
            ([], [])).2] := rfl

theorem bufWithin_trim {sentences : List (List Char)} {sz ov : Nat}
    {cur : List Char} (h : BufWithin sentences sz ov cur) :
    ChunkWithin sentences sz ov (jsTrim cur) := by
  rcases h with rfl | h | h | ⟨buf, s, hs, rfl⟩
  · exact Or.inl (by simp [jsTrim])
  · exact Or.inl ((jsTrim_length_le cur).trans h)
  · exact Or.inr (Or.inl ⟨cur, h, rfl⟩)
  · exact Or.inr (Or.inr ⟨buf, s, hs, rfl⟩)

theorem chunkFold_inv (sz ov : Nat) (sentences : List (List Char)) :
    ∀ (ss : List (List Char)), (∀ s ∈ ss, s ∈ sentences) →
    ∀ (chunks : List (List Char)) (cur : List Char),
      (∀ c ∈ chunks, ChunkWithin sentences sz ov c) →
      BufWithin sentences sz ov cur →
      (∀ c ∈ (ss.foldl (chunkStep sz ov) (chunks, cur)).1,
        ChunkWithin sentences sz ov c) ∧
      BufWithin sentences sz ov
        ((ss.foldl (chunkStep sz ov) (chunks, cur)).2) := by
  intro ss
  induction ss with
  | nil => exact fun _ chunks cur hchunks hcur => ⟨hchunks, hcur⟩
  | cons s ss ih =>
    intro hss chunks cur hchunks hcur
    have hs : s ∈ sentences := hss s (List.mem_cons_self s ss)
    have hss2 : ∀ t ∈ ss, t ∈ sentences :=
      fun t ht => hss t (List.mem_cons_of_mem s ht)
    rw [List.foldl_cons, chunkStep_eq]
    by_cases hcond : cur.length + s.length > sz ∧ cur.length > 0
    · rw [if_pos hcond]
      refine ih hss2 _ _ ?_ ?_
      · intro c hc
        rcases List.mem_append.mp hc with hc | hc
        · exact hchunks c hc
        · rcases List.mem_singleton.mp hc with rfl
          exact bufWithin_trim hcur
      · exact Or.inr (Or.inr (Or.inr ⟨cur, s, hs, rfl⟩))
    · rw [if_neg hcond]
      refine ih hss2 _ _ hchunks ?_
      by_cases hemp : cur.isEmpty
      · have : cur = [] := by
          cases cur with
          | nil => rfl
          | cons a l => simp [List.isEmpty] at hemp
        subst this
        simp only [List.isEmpty, if_pos]
        exact Or.inr (Or.inr (Or.inl (by simpa using hs)))
      · have hlen : cur.length > 0 := by
          cases cur with
          | nil => simp [List.isEmpty] at hemp
          | cons a l => simp
        have hle : cur.length + s.length ≤ sz := by
          rcases Nat.lt_or_ge sz (cur.length + s.length) with hgt | hge
          · exact absurd ⟨hgt, hlen⟩ hcond
          · exact hge
        rw [if_neg hemp]
        refine Or.inr (Or.inl ?_)
        simp only [List.length_append, List.length_cons, List.length_nil]
        omega

/-- C1 amended: every chunk the chunker emits has length at most
chunkSize + 1 (the size check ignores the space that joins the final
appended sentence), unless it is a single trimmed sentence, or the
word-overlap tail of the previous buffer joined with one sentence — the
two buffer seeds the loop never re-checks against the maximum. -/
theorem c1_amended (content : List Char) (chunkSize overlap : Nat) :
    ∀ c ∈ splitIntoChunks content chunkSize overlap,
      ChunkWithin (splitSentences content) chunkSize overlap c := by
  intro c hc
  have hinv := chunkFold_inv chunkSize overlap (splitSentences content)
    (splitSentences content) (fun s hs => hs) [] []
    (by intro c hc; cases hc) (Or.inl rfl)
  rw [splitIntoChunks_eq] at hc
  by_cases hb : (jsTrim ((splitSentences content).foldl
      (chunkStep chunkSize overlap) ([], [])).2).isEmpty
  · rw [if_pos hb] at hc
    exact hinv.1 c hc
  · rw [if_neg hb] at hc
    rcases List.mem_append.mp hc with hc | hc
    · exact hinv.1 c hc
    · rcases List.mem_singleton.mp hc with rfl
      exact bufWithin_trim hinv.2

/-- C1 counterexample: with maximum 10 and overlap 200, the input
"aaaa. bbbb. cccc." produces a first chunk of 11 characters and a second
of 17, both above the maximum and neither equal to a (trimmed) single
sentence of the input. -/
theorem c1_counterexample :
    splitIntoChunks ("aaaa. bbbb. cccc.".toList) 10 200 =
      ["aaaa. bbbb.".toList, "aaaa. bbbb. cccc.".toList] ∧
    ("aaaa. bbbb.".toList).length = 11 ∧
    ("aaaa. bbbb. cccc.".toList).length = 17 ∧
    ¬ ("aaaa. bbbb.".toList ∈
        (splitSentences ("aaaa. bbbb. cccc.".toList)).map jsTrim) ∧
    ¬ ("aaaa. bbbb. cccc.".toList ∈
        (splitSentences ("aaaa. bbbb. cccc.".toList)).map jsTrim) := by
  exact ⟨by decide, by decide, by decide, by decide, by decide⟩

theorem c1_witness :
    ("aaaa. bbbb.".toList ∈ splitIntoChunks ("aaaa. bbbb. cccc.".toList) 10 200) ∧
    ChunkWithin (splitSentences ("aaaa. bbbb. cccc.".toList)) 10 200
      ("aaaa. bbbb.".toList) :=
  ⟨by decide, c1_amended ("aaaa. bbbb. cccc.".toList) 10 200
    ("aaaa. bbbb.".toList) (by decide)⟩

theorem jsTrim_eq_nil_iff (l : List Char) :
    jsTrim l = [] ↔ ∀ c ∈ l, jsWs c = true := by
  rw [jsTrim, List.reverse_eq_nil_iff, List.dropWhile_eq_nil_iff]
  constructor
  · intro h c hc
    have hsplit : List.takeWhile jsWs l ++ List.dropWhile jsWs l = l :=
      List.takeWhile_append_dropWhile jsWs l
    rw [← hsplit] at hc
    rcases List.mem_append.mp hc with h1 | h2
    · exact List.mem_takeWhile_imp h1
    · exact h c (List.mem_reverse.mpr h2)
  · intro h c hc
    rw [List.mem_reverse] at hc
    exact h c (List.Sublist.mem hc (List.dropWhile_sublist _))

theorem ws_not_sentEnd (c : Char) (h : jsWs c = true) : isSentEnd c = false := by
  simp only [jsWs, Bool.or_eq_true, decide_eq_true_eq] at h
  rcases h with ((((h | h) | h) | h) | h) | h <;> subst h <;> decide

theorem ssAux_allWs (l : List Char) :
    ∀ (inSep : Bool) (prev : Option Char) (cur : List Char),
      (∀ s ∈ ssAux inSep prev cur l, ∀ c ∈ s, jsWs c = true) →
      (∀ c ∈ cur, jsWs c = true) ∧ (∀ c ∈ l, jsWs c = true) := by
  induction l with
  | nil =>
    intro inSep prev cur h
    refine ⟨?_, by simp⟩
    intro c hc
    have hmem : cur.reverse ∈ ssAux inSep prev cur [] := by
      cases inSep <;> exact List.mem_singleton.mpr rfl
    exact h cur.reverse hmem c (List.mem_reverse.mpr hc)
  | cons a rest ih =>
    intro inSep prev cur h
    cases inSep with
    | false =>
      by_cases hg : (jsWs a && prevPunct prev) = true
      · have hred : ssAux false prev cur (a :: rest) =
            cur.reverse :: ssAux true prev [] rest := by
          rw [ssAux, if_pos hg]
        rw [hred] at h
        have hcur : ∀ c ∈ cur, jsWs c = true := by
          intro c hc
          exact h cur.reverse (List.mem_cons_self _ _) c (List.mem_reverse.mpr hc)
        have hrec := ih true prev []
          (fun s hs => h s (List.mem_cons_of_mem _ hs))
        refine ⟨hcur, ?_⟩
        intro c hc
        rcases List.mem_cons.mp hc with rfl | hc
        · simp only [Bool.and_eq_true] at hg
          exact hg.1
        · exact hrec.2 c hc
      · have hred : ssAux false prev cur (a :: rest) =
            ssAux false (some a) (a :: cur) rest := by
          rw [ssAux, if_neg hg]
        rw [hred] at h
        have hrec := ih false (some a) (a :: cur) h
        refine ⟨fun c hc => hrec.1 c (List.mem_cons_of_mem _ hc), ?_⟩
        intro c hc
        rcases List.mem_cons.mp hc with rfl | hc
        · exact hrec.1 c (List.mem_cons_self _ _)
        · exact hrec.2 c hc
    | true =>
      by_cases hg : jsWs a = true
      · have hred : ssAux true prev cur (a :: rest) =
            ssAux true prev cur rest := by
          rw [ssAux, if_pos hg]
        rw [hred] at h
        have hrec := ih true prev cur h
        refine ⟨hrec.1, ?_⟩
        intro c hc
        rcases List.mem_cons.mp hc with rfl | hc
        · exact hg
        · exact hrec.2 c hc
      · have hred : ssAux true prev cur (a :: rest) =
            ssAux false (some a) (a :: cur) rest := by
          rw [ssAux, if_neg hg]
        rw [hred] at h
        have hrec := ih false (some a) (a :: cur) h
        refine ⟨fun c hc => hrec.1 c (List.mem_cons_of_mem _ hc), ?_⟩
        intro c hc
        rcases List.mem_cons.mp hc with rfl | hc
        · exact hrec.1 c (List.mem_cons_self _ _)
        · exact hrec.2 c hc

theorem ssAux_allWs_single (l : List Char) :
    ∀ (prev : Option Char) (cur : List Char),
      (∀ c ∈ l, jsWs c = true) → prevPunct prev = false →
      ssAux false prev cur l = [cur.reverse ++ l] := by
  induction l with
  | nil => intro prev cur _ _; simp [ssAux]
  | cons a rest ih =>
    intro prev cur h hprev
    have hg : (jsWs a && prevPunct prev) = false := by
      rw [hprev, Bool.and_false]
    rw [ssAux, if_neg (by simp [hg])]
    have ha : jsWs a = true := h a (List.mem_cons_self _ _)
    have hprev2 : prevPunct (some a) = false := ws_not_sentEnd a ha
    rw [ih (some a) (a :: cur) (fun c hc => h c (List.mem_cons_of_mem _ hc)) hprev2]
    simp

theorem splitSentences_allWs (content : List Char)
    (h : ∀ c ∈ content, jsWs c = true) :
    splitSentences content = [content] := by
  rw [splitSentences, ssAux_allWs_single content none [] h rfl]
  simp

theorem chunkFold_prefix (sz ov : Nat) (ss : List (List Char)) :
    ∀ (chunks : List (List Char)) (cur : List Char),
      ∃ tail, (ss.foldl (chunkStep sz ov) (chunks, cur)).1 = chunks ++ tail := by
  induction ss with
  | nil => exact fun chunks cur => ⟨[], by simp⟩
  | cons s ss ih =>
    intro chunks cur
    rw [List.foldl_cons, chunkStep_eq]
    by_cases hcond : cur.length + s.length > sz ∧ cur.length > 0
    · rw [if_pos hcond]
      obtain ⟨tail, htail⟩ := ih (chunks ++ [jsTrim cur]) (overlapSeed cur ov ++ ' ' :: s)
      exact ⟨[jsTrim cur] ++ tail, by rw [htail, List.append_assoc]⟩
    · rw [if_neg hcond]
      exact ih chunks _

theorem chunkFold_nopush (sz ov : Nat) (ss : List (List Char)) :
    ∀ (chunks : List (List Char)) (cur : List Char),
      (ss.foldl (chunkStep sz ov) (chunks, cur)).1 = chunks →
      (ss.foldl (chunkStep sz ov) (chunks, cur)).2 = appendJoin cur ss := by
  induction ss with
  | nil => intro chunks cur _; rfl
  | cons s ss ih =>
    intro chunks cur h
    rw [List.foldl_cons, chunkStep_eq] at h ⊢
    by_cases hcond : cur.length + s.length > sz ∧ cur.length > 0
    · exfalso
      rw [if_pos hcond] at h
      obtain ⟨tail, htail⟩ := chunkFold_prefix sz ov ss (chunks ++ [jsTrim cur])
        (overlapSeed cur ov ++ ' ' :: s)
      rw [htail] at h
      have := congrArg List.length h
      simp at this
    · rw [if_neg hcond] at h ⊢
      exact ih chunks _ h

theorem appendJoin_allWs (ss : List (List Char)) :
    ∀ (cur : List Char),
      (∀ c ∈ appendJoin cur ss, jsWs c = true) →
      (∀ c ∈ cur, jsWs c = true) ∧ ∀ s ∈ ss, ∀ c ∈ s, jsWs c = true := by
  induction ss with
  | nil => exact fun cur h => ⟨h, by simp⟩
  | cons s ss ih =>
    intro cur h
    have hrec := ih (cur ++ (if cur.isEmpty then [] else [' ']) ++ s) h
    have hcs : ∀ c ∈ cur ++ (if cur.isEmpty then [] else [' ']) ++ s,
        jsWs c = true := hrec.1
    refine ⟨?_, ?_⟩
    · intro c hc
      exact hcs c (by simp [hc])
    · intro t ht
      rcases List.mem_cons.mp ht with rfl | ht
      · intro c hc
        exact hcs c (by simp [hc])
      · exact hrec.2 t ht

/-- C8 amended: the chunker's output is empty exactly when the input has
no non-whitespace character (its trim is empty) — not only for the empty
string: an all-whitespace input also yields no chunks. -/
theorem c8_amended (content : List Char) (chunkSize overlap : Nat) :
    splitIntoChunks content chunkSize overlap = [] ↔ jsTrim content = [] := by
  constructor
  · intro h
    rw [splitIntoChunks_eq] at h
    by_cases hb : (jsTrim ((splitSentences content).foldl
        (chunkStep chunkSize overlap) ([], [])).2).isEmpty
    · rw [if_pos hb] at h
      have hnp := chunkFold_nopush chunkSize overlap (splitSentences content) [] [] h
      rw [List.isEmpty_iff] at hb
      rw [hnp] at hb
      have hws := (jsTrim_eq_nil_iff _).mp hb
      have hall := appendJoin_allWs (splitSentences content) [] hws
      have hcontent := (ssAux_allWs content false none [] hall.2).2
      exact (jsTrim_eq_nil_iff content).mpr hcontent
    · rw [if_neg hb] at h
      simp at h
  · intro h
    have hws : ∀ c ∈ content, jsWs c = true := (jsTrim_eq_nil_iff content).mp h
    have hstep : chunkStep chunkSize overlap ([], []) content = ([], content) := by
      rw [chunkStep_eq, if_neg (by simp)]
      simp
    rw [splitIntoChunks_eq, splitSentences_allWs content hws]
    simp only [List.foldl_cons, List.foldl_nil, hstep]
    rw [if_pos (by simp [h])]

/-- C8 counterexample: a single space is a nonempty input whose chunk list
is empty, refuting "output is empty iff input is empty". -/
theorem c8_counterexample :
    splitIntoChunks (" ".toList) 1000 200 = [] ∧
    (" ".toList) ≠ ("".toList) := by
  exact ⟨by decide, by decide⟩

theorem stripQuotesJs_eq_spec (v : List Char) :
    stripQuotesJs v = stripQuotesPairSpec v := by
  have hDS : quoteD ≠ quoteS := by decide
  cases v with
  | nil => rfl
  | cons c t =>
    cases t with
    | nil =>
      by_cases h1 : c = quoteD
      · subst h1; rfl
      · by_cases h2 : c = quoteS
        · subst h2; rfl
        · simp [stripQuotesJs, stripQuotesPairSpec, isQuoteCh, h1, h2]
    | cons d rest =>
      cases hE : (d :: rest).getLast? with
      | none => simp [List.getLast?_eq_none_iff] at hE
      | some e =>
        simp only [stripQuotesJs, stripQuotesPairSpec, List.head?_cons,
          List.getLast?_cons_cons, hE, List.drop_succ_cons, List.drop_zero]
        by_cases h1 : c = quoteD <;> by_cases h2 : c = quoteS <;>
          by_cases h3 : e = quoteD <;> by_cases h4 : e = quoteS <;>
          simp_all [isQuoteCh]

theorem dropTrail_eq (w : List Char) :
    (match w.getLast? with
      | some c => if isQuoteCh c then w.dropLast else w
      | none => w) = dropTrailQuoteSpec w := by
  rcases List.eq_nil_or_concat w with rfl | ⟨t, a, rfl⟩
  · rfl
  · simp only [List.concat_eq_append]
    rw [List.getLast?_concat]
    by_cases hq : isQuoteCh a
    · simp [hq, List.dropLast_concat, dropTrailQuoteSpec, dropLeadQuoteSpec,
        List.reverse_append]
    · simp [hq, dropTrailQuoteSpec, dropLeadQuoteSpec, List.reverse_append]

theorem stripQuotesEmbJs_eq_spec (v : List Char) :
    stripQuotesEmbJs v = stripQuotesEndsSpec v := by
  rw [stripQuotesEndsSpec, ← dropTrail_eq]
  cases v with
  | nil => rfl
  | cons c rest => rfl

/-- C9 amended: both parsers skip a line with no colon or a colon at
position 0; for a colon at a positive index, key and value are trimmed,
and then the basic builder removes the end characters exactly when the
value starts and ends with the same quote character (a value that is a
single quote character becomes empty), while the embeddings builder
strips one leading and one trailing quote character independently, the
two need not match. -/
theorem c9_amended (line : List Char) :
    (line.findIdx? (fun ch => ch = ':') = none →
      parseFmLine line = none ∧ parseFmLineEmb line = none) ∧
    (line.findIdx? (fun ch => ch = ':') = some 0 →
      parseFmLine line = none ∧ parseFmLineEmb line = none) ∧
    (∀ idx, line.findIdx? (fun ch => ch = ':') = some (idx + 1) →
      parseFmLine line =
        some (jsTrim (line.take (idx + 1)),
          stripQuotesPairSpec (jsTrim (line.drop (idx + 2)))) ∧
      parseFmLineEmb line =
        some (jsTrim (line.take (idx + 1)),
          stripQuotesEndsSpec (jsTrim (line.drop (idx + 2))))) := by
  refine ⟨?_, ?_, ?_⟩
  · intro h
    constructor <;> simp [parseFmLine, parseFmLineEmb, h]
  · intro h
    constructor <;> simp [parseFmLine, parseFmLineEmb, h]
  · intro idx h
    constructor
    · simp [parseFmLine, h, stripQuotesJs_eq_spec]
    · simp [parseFmLineEmb, h, stripQuotesEmbJs_eq_spec]

/-- C9 counterexample: the embeddings parser removes a MISMATCHED pair —
a leading double quote and a trailing single quote are both stripped from
the value, where the claim demands that no quote be removed; and the
basic parser maps a value consisting of a single quote character to the
empty string, removing a quote that is not part of a pair. -/
theorem c9_counterexample :
    parseFmLineEmb ("title: ".toList ++ quoteD :: "abc".toList ++ [quoteS]) =
      some ("title".toList, "abc".toList) ∧
    "abc".toList ≠ quoteD :: "abc".toList ++ [quoteS] ∧
    parseFmLine ("title: ".toList ++ [quoteD]) =
      some ("title".toList, []) := by
  exact ⟨by decide, by decide, by decide⟩

theorem c9_witness :
    (("title: x".toList).findIdx? (fun ch => ch = ':') = some (4 + 1)) ∧
    (parseFmLine ("title: x".toList) =
      some (jsTrim (("title: x".toList).take (4 + 1)),
        stripQuotesPairSpec (jsTrim (("title: x".toList).drop (4 + 2)))) ∧
     parseFmLineEmb ("title: x".toList) =
      some (jsTrim (("title: x".toList).take (4 + 1)),
        stripQuotesEndsSpec (jsTrim (("title: x".toList).drop (4 + 2))))) :=
  ⟨by decide, (c9_amended ("title: x".toList)).2.2 4 (by decide)⟩

theorem processFile_ids (filePath raw : List Char) (config : BuildConfig)
    (baseDir : List Char) :
    (processFile filePath raw config baseDir).map (fun r => r.id) =
      (List.range (processFile filePath raw config baseDir).length).map
        (generateChunkId filePath) := by
  cases hb : ((cleanMarkdownContent (parseFrontmatter raw).2).isEmpty
      || decide ((cleanMarkdownContent (parseFrontmatter raw).2).length < 50)) with
  | true =>
    rw [processFile_eq_ite, if_pos hb]
    rfl
  | false =>
    rw [processFile_eq_ite, if_neg (by simp [hb]), mapIdxFrom_length,
      List.range_eq_range']
    exact mapIdxFrom_map_range'
      (chunkRecBuilder filePath raw config baseDir
        (splitIntoChunks (cleanMarkdownContent (parseFrontmatter raw).2)
          config.chunkSize config.chunkOverlap).length)
      (fun r => r.id) (generateChunkId filePath)
      (fun j a =>
        (chunkRecBuilder_fields filePath raw config baseDir _ j a).2.2)
      0
      (splitIntoChunks (cleanMarkdownContent (parseFrontmatter raw).2)
        config.chunkSize config.chunkOverlap)

theorem buildIndex_ids (files : List FileEntry) (config : BuildConfig) :
    (buildIndex files config).chunks.map (fun r => r.id) =
      (chunkIdPairs files config).map (fun p => generateChunkId p.1 p.2) := by
  rw [buildIndex_chunks_eq, allChunks, chunkIdPairs,
    List.map_flatten, List.map_flatten, List.map_map, List.map_map]
  refine congrArg List.flatten (List.map_congr_left ?_)
  intro f hf
  simp only [Function.comp]
  rw [processFile_ids, List.map_map]
  simp only [fileChunkCount]
  exact List.map_congr_left (fun i _ => rfl)

theorem chunkIdPairs_nodup (files : List FileEntry) (config : BuildConfig)
    (hpaths : (files.map FileEntry.path).Nodup) :
    (chunkIdPairs files config).Nodup := by
  rw [chunkIdPairs, List.nodup_flatten]
  constructor
  · intro l hl
    rw [List.mem_map] at hl
    obtain ⟨f, hf, rfl⟩ := hl
    refine List.Nodup.map ?_ (List.nodup_range _)
    intro i j hij
    simpa using congrArg Prod.snd hij
  · have hpw : files.Pairwise (fun a b => a.path ≠ b.path) := by
      have h := hpaths
      rw [List.Nodup, List.pairwise_map] at h
      exact h
    rw [List.pairwise_map]
    refine hpw.imp ?_
    intro a b hne x hx1 hx2
    rw [List.mem_map] at hx1 hx2
    obtain ⟨i, hi, rfl⟩ := hx1
    obtain ⟨j, hj, hj2⟩ := hx2
    have hfst : b.path = a.path := by simpa using congrArg Prod.fst hj2
    exact hne hfst.symm

/-- C5 amended: within one build over files with pairwise-distinct paths,
the (source path, chunk index) pairs behind the ids are pairwise
distinct, so the ids are pairwise distinct whenever the 8-character MD5
truncation does not collide on those pairs; the truncation to 32 bits,
however, does admit collisions, so uniqueness is conditional on that
injectivity, not absolute. -/
theorem c5_amended (files : List FileEntry) (config : BuildConfig)
    (hpaths : (files.map FileEntry.path).Nodup) :
    (chunkIdPairs files config).Nodup ∧
    ((∀ p ∈ chunkIdPairs files config, ∀ q ∈ chunkIdPairs files config,
        generateChunkId p.1 p.2 = generateChunkId q.1 q.2 → p = q) →
      ((buildIndex files config).chunks.map (fun r => r.id)).Nodup) := by
  refine ⟨chunkIdPairs_nodup files config hpaths, ?_⟩
  intro hinj
  rw [buildIndex_ids]
  exact List.Nodup.map_on hinj (chunkIdPairs_nodup files config hpaths)

/-- C5 counterexample: two distinct files whose chunk-0 id strings collide
in the first eight hexadecimal characters of MD5; the assembled index
contains two records with the same id "a011763a". -/
theorem c5_counterexample :
    ((buildIndex
        [⟨"docs/p153571.md".toList,
          "This is a sample documentation page. It has enough prose to be indexed properly.".toList,
          "docs".toList⟩,
         ⟨"docs/p167781.md".toList,
          "This is a sample documentation page. It has enough prose to be indexed properly.".toList,
          "docs".toList⟩] ⟨1000, 200⟩).chunks.map (fun r => r.id)) =
      ["a011763a".toList, "a011763a".toList] ∧
    ¬ ((buildIndex
        [⟨"docs/p153571.md".toList,
          "This is a sample documentation page. It has enough prose to be indexed properly.".toList,
          "docs".toList⟩,
         ⟨"docs/p167781.md".toList,
          "This is a sample documentation page. It has enough prose to be indexed properly.".toList,
          "docs".toList⟩] ⟨1000, 200⟩).chunks.map (fun r => r.id)).Nodup ∧
    ("docs/p153571.md".toList) ≠ ("docs/p167781.md".toList) := by
  exact ⟨by decide, by decide, by decide⟩

theorem c5_witness :
    (([⟨"docs/a.md".toList,
        "This is a sample documentation page. It has enough prose to be indexed properly.".toList,
        "docs".toList⟩,
       ⟨"docs/b.md".toList,
        "This is a sample documentation page. It has enough prose to be indexed properly.".toList,
        "docs".toList⟩] : List FileEntry).map FileEntry.path).Nodup ∧
    (chunkIdPairs
      [⟨"docs/a.md".toList,
        "This is a sample documentation page. It has enough prose to be indexed properly.".toList,
        "docs".toList⟩,
       ⟨"docs/b.md".toList,
        "This is a sample documentation page. It has enough prose to be indexed properly.".toList,
        "docs".toList⟩] ⟨1000, 200⟩).Nodup ∧
    ((buildIndex
      [⟨"docs/a.md".toList,
        "This is a sample documentation page. It has enough prose to be indexed properly.".toList,
        "docs".toList⟩,
       ⟨"docs/b.md".toList,
        "This is a sample documentation page. It has enough prose to be indexed properly.".toList,
        "docs".toList⟩] ⟨1000, 200⟩).chunks.map (fun r => r.id)).Nodup :=
  ⟨by decide,
   (c5_amended _ ⟨1000, 200⟩ (by decide)).1,
   (c5_amended _ ⟨1000, 200⟩ (by decide)).2 (by decide)⟩

theorem lookup_isSome_iff (m : List (List Char × Nat)) (w : List Char) :
    (m.lookup w).isSome ↔ ∃ p ∈ m, p.1 = w := by
  induction m with
  | nil => simp [List.lookup]
  | cons p ps ih =>
    by_cases h : p.1 = w
    · simp [List.lookup, h]
    · have hbeq : (w == p.1) = false := by
        simp only [beq_eq_false_iff_ne, ne_eq]
        exact fun he => h he.symm
      simp only [List.lookup, hbeq]
      rw [ih]
      constructor
      · rintro ⟨q, hq, hqw⟩
        exact ⟨q, List.mem_cons_of_mem _ hq, hqw⟩
      · rintro ⟨q, hq, hqw⟩
        rcases List.mem_cons.mp hq with rfl | hq
        · exact absurd hqw h
        · exact ⟨q, hq, hqw⟩

theorem occCount_append (l t : List (List Char)) (w : List Char) :
    occCount (l ++ t) w = occCount l w + occCount t w := by
  induction l with
  | nil => simp [occCount]
  | cons a rest ih =>
    simp only [List.cons_append, occCount]
    have ih2 : occCount (rest.append t) w = occCount rest w + occCount t w := ih
    omega

theorem occCount_eq_zero_of_not_mem (l : List (List Char)) (w : List Char)
    (h : w ∉ l) : occCount l w = 0 := by
  induction l with
  | nil => rfl
  | cons a rest ih =>
    have ha : ¬ (a = w) := fun he => h (he ▸ List.mem_cons_self a rest)
    simp [occCount, ha, ih (fun hw => h (List.mem_cons_of_mem _ hw))]

theorem firstIdx_append_of_mem (l t : List (List Char)) (w : List Char)
    (h : w ∈ l) : firstIdx (l ++ t) w = firstIdx l w := by
  induction l with
  | nil => cases h
  | cons a rest ih =>
    by_cases ha : a = w
    · simp [firstIdx, ha]
    · have hw : w ∈ rest := by
        rcases List.mem_cons.mp h with he | hw
        · exact absurd he.symm ha
        · exact hw
      simp [firstIdx, ha, ih hw]

theorem firstIdx_append_of_not_mem (l t : List (List Char)) (w : List Char)
    (h : w ∉ l) : firstIdx (l ++ t) w = l.length + firstIdx t w := by
  induction l with
  | nil => simp [firstIdx]
  | cons a rest ih =>
    have ha : ¬ (a = w) := fun he => h (he ▸ List.mem_cons_self a rest)
    simp only [List.cons_append, firstIdx, ha, if_false, List.length_cons]
    have ih2 : firstIdx (rest.append t) w = rest.length + firstIdx t w :=
      ih (fun hw => h (List.mem_cons_of_mem _ hw))
    omega

theorem firstIdx_lt_length (l : List (List Char)) (w : List Char)
    (h : w ∈ l) : firstIdx l w < l.length := by
  induction l with
  | nil => cases h
  | cons a rest ih =>
    by_cases ha : a = w
    · simp [firstIdx, ha]
    · have hw : w ∈ rest := by
        rcases List.mem_cons.mp h with he | hw
        · exact absurd he.symm ha
        · exact hw
      have := ih hw
      simp only [firstIdx, ha, if_false, List.length_cons]
      omega

theorem bumpFreq_inv (processed : List (List Char))
    (m : List (List Char × Nat)) (w : List Char)
    (h : FreqInvariant processed m) :
    FreqInvariant (processed ++ [w]) (bumpFreq m w) := by
  obtain ⟨hmem, hcov, hcnt, hnd, hord⟩ := h
  by_cases hl : (m.lookup w).isSome
  · obtain ⟨p0, hp0, hp0w⟩ := (lookup_isSome_iff m w).mp hl
    rw [bumpFreq, if_pos hl]
    have hupdfst : ∀ p : List Char × Nat,
        ((if p.1 = w then (p.1, p.2 + 1) else p) : List Char × Nat).1 = p.1 := by
      intro p
      by_cases hpw : p.1 = w <;> simp [hpw]
    refine ⟨?_, ?_, ?_, ?_, ?_⟩
    · intro q hq
      rw [List.mem_map] at hq
      obtain ⟨p, hp, rfl⟩ := hq
      rw [hupdfst]
      exact List.mem_append_left _ (hmem p hp)
    · intro v hv
      rcases List.mem_append.mp hv with hv | hv
      · obtain ⟨p, hp, hpv⟩ := hcov v hv
        exact ⟨_, List.mem_map_of_mem _ hp, by rw [hupdfst, hpv]⟩
      · rw [List.mem_singleton] at hv
        exact ⟨_, List.mem_map_of_mem _ hp0, by rw [hupdfst, hp0w, hv]⟩
    · intro q hq
      rw [List.mem_map] at hq
      obtain ⟨p, hp, rfl⟩ := hq
      have hc := hcnt p hp
      by_cases hpw : p.1 = w
      · rw [hpw] at hc
        simp [hpw, occCount_append, occCount, hc]
      · have hne : ¬ (w = p.1) := fun he => hpw he.symm
        simp [hpw, occCount_append, occCount, hne, hc]
    · have hkeys : (m.map (fun p => if p.1 = w then (p.1, p.2 + 1) else p)).map
          Prod.fst = m.map Prod.fst := by
        rw [List.map_map]
        exact List.map_congr_left (fun p _ => hupdfst p)
      rw [hkeys]
      exact hnd
    · rw [List.pairwise_map]
      simp only [hupdfst]
      refine hord.imp_of_mem ?_
      intro p q hp hq hpq
      rw [firstIdx_append_of_mem _ _ _ (hmem p hp),
        firstIdx_append_of_mem _ _ _ (hmem q hq)]
      exact hpq
  · rw [bumpFreq, if_neg hl]
    have hwnot : w ∉ processed := by
      intro hw
      exact hl ((lookup_isSome_iff m w).mpr (hcov w hw))
    have hwkeys : ∀ p ∈ m, p.1 ≠ w := by
      intro p hp he
      exact hl ((lookup_isSome_iff m w).mpr ⟨p, hp, he⟩)
    refine ⟨?_, ?_, ?_, ?_, ?_⟩
    · intro q hq
      rcases List.mem_append.mp hq with hq | hq
      · exact List.mem_append_left _ (hmem q hq)
      · rw [List.mem_singleton] at hq
        subst hq
        exact List.mem_append_right _ (List.mem_singleton.mpr rfl)
    · intro v hv
      rcases List.mem_append.mp hv with hv | hv
      · obtain ⟨p, hp, hpv⟩ := hcov v hv
        exact ⟨p, List.mem_append_left _ hp, hpv⟩
      · rw [List.mem_singleton] at hv
        exact ⟨(w, 1), List.mem_append_right _ (List.mem_singleton.mpr rfl),
          hv.symm⟩
    · intro q hq
      rcases List.mem_append.mp hq with hq | hq
      · have hc := hcnt q hq
        have hne : ¬ (w = q.1) := fun he => hwkeys q hq he.symm
        simp [occCount_append, occCount, hne, hc]
      · rw [List.mem_singleton] at hq
        subst hq
        have h0 : occCount processed w = 0 :=
          occCount_eq_zero_of_not_mem processed w hwnot
        simp [occCount_append, occCount, h0]
    · rw [List.map_append, List.nodup_append]
      refine ⟨hnd, List.nodup_singleton w, ?_⟩
      intro x hx1 hx2
      rw [List.mem_map] at hx1
      obtain ⟨p, hp, rfl⟩ := hx1
      simp only [List.map_cons, List.map_nil, List.mem_singleton] at hx2
      exact hwkeys p hp hx2
    · rw [List.pairwise_append]
      refine ⟨?_, List.pairwise_singleton _ _, ?_⟩
      · refine hord.imp_of_mem ?_
        intro p q hp hq hpq
        rw [firstIdx_append_of_mem _ _ _ (hmem p hp),
          firstIdx_append_of_mem _ _ _ (hmem q hq)]
        exact hpq
      · intro p hp q hq
        rw [List.mem_singleton] at hq
        subst hq
        have hfst : ((w, 1) : List Char × Nat).1 = w := rfl
        rw [hfst, firstIdx_append_of_mem _ _ _ (hmem p hp),
          firstIdx_append_of_not_mem _ _ _ hwnot]
        have hlt : firstIdx processed p.1 < processed.length :=
          firstIdx_lt_length processed p.1 (hmem p hp)
        omega

theorem foldl_bumpFreq_inv (ws : List (List Char)) :
    ∀ (processed : List (List Char)) (m : List (List Char × Nat)),
      FreqInvariant processed m →
      FreqInvariant (processed ++ ws) (ws.foldl bumpFreq m) := by
  induction ws with
  | nil => intro processed m h; simpa using h
  | cons w ws ih =>
    intro processed m h
    have h1 := bumpFreq_inv processed m w h
    have h2 := ih (processed ++ [w]) (bumpFreq m w) h1
    rw [List.append_assoc] at h2
    simpa using h2

theorem freqTable_inv (toks : List (List Char)) :
    FreqInvariant toks (freqTable toks) := by
  have hbase : FreqInvariant [] [] :=
    ⟨by simp, by simp, by simp, by simp, by simp⟩
  have h := foldl_bumpFreq_inv toks [] [] hbase
  simpa [freqTable] using h

theorem insDesc_perm (x : List Char × Nat) (l : List (List Char × Nat)) :
    List.Perm (insDesc x l) (x :: l) := by
  induction l with
  | nil => exact List.Perm.refl _
  | cons y ys ih =>
    by_cases h : y.2 ≤ x.2
    · have he : insDesc x (y :: ys) = x :: y :: ys := by simp [insDesc, h]
      rw [he]
    · have he : insDesc x (y :: ys) = y :: insDesc x ys := by simp [insDesc, h]
      rw [he]
      exact (List.Perm.cons y ih).trans (List.Perm.swap x y ys)

theorem sortDescCnt_perm (l : List (List Char × Nat)) :
    List.Perm (sortDescCnt l) l := by
  induction l with
  | nil => exact List.Perm.refl _
  | cons x xs ih =>
    have h1 : List.Perm (insDesc x (sortDescCnt xs)) (x :: sortDescCnt xs) :=
      insDesc_perm x (sortDescCnt xs)
    exact h1.trans (List.Perm.cons x ih)

theorem insDesc_pairwise (toks : List (List Char)) (x : List Char × Nat)
    (l : List (List Char × Nat)) (hS : ∀ y ∈ l, EntryOrder toks x y)
    (hD : l.Pairwise (DescD toks)) :
    (insDesc x l).Pairwise (DescD toks) := by
  induction l with
  | nil => exact List.pairwise_singleton _ _
  | cons y ys ih =>
    rw [List.pairwise_cons] at hD
    obtain ⟨hy, hys⟩ := hD
    by_cases h : y.2 ≤ x.2
    · have he : insDesc x (y :: ys) = x :: y :: ys := by simp [insDesc, h]
      rw [he, List.pairwise_cons]
      refine ⟨?_, List.pairwise_cons.mpr ⟨hy, hys⟩⟩
      intro z hz
      rw [List.mem_cons] at hz
      rcases hz with hz | hz
      · rw [hz]
        exact ⟨h, fun _ => hS y (List.mem_cons_self y ys)⟩
      · exact ⟨le_trans (hy z hz).1 h,
          fun _ => hS z (List.mem_cons_of_mem _ hz)⟩
    · have he : insDesc x (y :: ys) = y :: insDesc x ys := by simp [insDesc, h]
      rw [he, List.pairwise_cons]
      refine ⟨?_, ih (fun z hz => hS z (List.mem_cons_of_mem _ hz)) hys⟩
      intro z hz
      have hz2 := (insDesc_perm x ys).mem_iff.mp hz
      rw [List.mem_cons] at hz2
      rcases hz2 with hz2 | hz2
      · rw [hz2]
        have hlt : x.2 < y.2 := Nat.lt_of_not_le h
        exact ⟨Nat.le_of_lt hlt, fun heq => absurd heq.symm (Nat.ne_of_lt hlt)⟩
      · exact hy z hz2

theorem sortDescCnt_pairwise (toks : List (List Char))
    (l : List (List Char × Nat)) (hS : l.Pairwise (EntryOrder toks)) :
    (sortDescCnt l).Pairwise (DescD toks) := by
  induction l with
  | nil => exact List.Pairwise.nil
  | cons x xs ih =>
    rw [List.pairwise_cons] at hS
    obtain ⟨hx, hxs⟩ := hS
    show (insDesc x (sortDescCnt xs)).Pairwise (DescD toks)
    refine insDesc_pairwise toks x (sortDescCnt xs) ?_ (ih hxs)
    intro y hy
    exact hx y ((sortDescCnt_perm xs).mem_iff.mp hy)

theorem insAsc_perm (x : List Char × Nat) (l : List (List Char × Nat)) :
    List.Perm (insAsc x l) (x :: l) := by
  induction l with
  | nil => exact List.Perm.refl _
  | cons y ys ih =>
    by_cases h : digitsToNat x.1 ≤ digitsToNat y.1
    · have he : insAsc x (y :: ys) = x :: y :: ys := by simp [insAsc, h]
      rw [he]
    · have he : insAsc x (y :: ys) = y :: insAsc x ys := by simp [insAsc, h]
      rw [he]
      exact (List.Perm.cons y ih).trans (List.Perm.swap x y ys)

theorem sortAscKey_perm (l : List (List Char × Nat)) :
    List.Perm (sortAscKey l) l := by
  induction l with
  | nil => exact List.Perm.refl _
  | cons x xs ih =>
    have h1 : List.Perm (insAsc x (sortAscKey xs)) (x :: sortAscKey xs) :=
      insAsc_perm x (sortAscKey xs)
    exact h1.trans (List.Perm.cons x ih)

theorem insAsc_pairwise (x : List Char × Nat) (l : List (List Char × Nat))
    (hl : l.Pairwise (fun p q => digitsToNat p.1 ≤ digitsToNat q.1)) :
    (insAsc x l).Pairwise (fun p q => digitsToNat p.1 ≤ digitsToNat q.1) := by
  induction l with
  | nil => exact List.pairwise_singleton _ _
  | cons y ys ih =>
    rw [List.pairwise_cons] at hl
    obtain ⟨hy, hys⟩ := hl
    by_cases h : digitsToNat x.1 ≤ digitsToNat y.1
    · have he : insAsc x (y :: ys) = x :: y :: ys := by simp [insAsc, h]
      rw [he, List.pairwise_cons]
      refine ⟨?_, List.pairwise_cons.mpr ⟨hy, hys⟩⟩
      intro z hz
      rw [List.mem_cons] at hz
      rcases hz with hz | hz
      · rw [hz]
        exact h
      · exact le_trans h (hy z hz)
    · have he : insAsc x (y :: ys) = y :: insAsc x ys := by simp [insAsc, h]
      rw [he, List.pairwise_cons]
      refine ⟨?_, ih hys⟩
      intro z hz
      have hz2 := (insAsc_perm x ys).mem_iff.mp hz
      rw [List.mem_cons] at hz2
      rcases hz2 with hz2 | hz2
      · rw [hz2]
        exact Nat.le_of_lt (Nat.lt_of_not_le h)
      · exact hy z hz2

theorem sortAscKey_pairwise (l : List (List Char × Nat)) :
    (sortAscKey l).Pairwise (fun p q => digitsToNat p.1 ≤ digitsToNat q.1) := by
  induction l with
  | nil => exact List.Pairwise.nil
  | cons x xs ih =>
    show (insAsc x (sortAscKey xs)).Pairwise
      (fun p q => digitsToNat p.1 ≤ digitsToNat q.1)
    exact insAsc_pairwise x (sortAscKey xs) ih

theorem jsEntries_perm (m : List (List Char × Nat)) :
    List.Perm (jsEntries m) m := by
  have h1 : List.Perm (sortAscKey (m.filter (fun p => isArrayIndexKey p.1)))
      (m.filter (fun p => isArrayIndexKey p.1)) := sortAscKey_perm _
  have h2 := List.filter_append_perm (fun p => isArrayIndexKey p.1) m
  show List.Perm (sortAscKey (m.filter (fun p => isArrayIndexKey p.1)) ++
      m.filter (fun p => !isArrayIndexKey p.1)) m
  exact (h1.append_right _).trans h2

theorem jsEntries_pairwise (toks : List (List Char))
    (m : List (List Char × Nat))
    (hord : m.Pairwise (fun p q => firstIdx toks p.1 < firstIdx toks q.1)) :
    (jsEntries m).Pairwise (EntryOrder toks) := by
  have hmemidx : ∀ p ∈ sortAscKey (m.filter (fun p => isArrayIndexKey p.1)),
      isArrayIndexKey p.1 = true := by
    intro p hp
    have hp2 := (sortAscKey_perm _).mem_iff.mp hp
    exact (List.mem_filter.mp hp2).2
  have hmemnon : ∀ p ∈ m.filter (fun p => !isArrayIndexKey p.1),
      isArrayIndexKey p.1 = false := by
    intro p hp
    have hp2 := (List.mem_filter.mp hp).2
    simpa using hp2
  rw [jsEntries, List.pairwise_append]
  refine ⟨?_, ?_, ?_⟩
  · refine (sortAscKey_pairwise _).imp_of_mem ?_
    intro p q hp hq hpq
    refine ⟨fun _ => hmemidx p hp, fun _ _ => hpq, ?_⟩
    intro hpf _
    rw [hmemidx p hp] at hpf
    cases hpf
  · have hpw : (m.filter (fun p => !isArrayIndexKey p.1)).Pairwise
        (fun p q => firstIdx toks p.1 < firstIdx toks q.1) :=
      List.Pairwise.sublist (List.filter_sublist m) hord
    refine hpw.imp_of_mem ?_
    intro p q hp hq hpq
    refine ⟨?_, ?_, fun _ _ => hpq⟩
    · intro hq1
      rw [hmemnon q hq] at hq1
      cases hq1
    · intro hp1 _
      rw [hmemnon p hp] at hp1
      cases hp1
  · intro p hp q hq
    refine ⟨fun _ => hmemidx p hp, ?_, ?_⟩
    · intro _ hq1
      rw [hmemnon q hq] at hq1
      cases hq1
    · intro hp0 _
      rw [hmemidx p hp] at hp0
      cases hp0

theorem sortedEntries_perm (toks : List (List Char)) :
    List.Perm (sortDescCnt (jsEntries (freqTable toks))) (freqTable toks) :=
  (sortDescCnt_perm _).trans (jsEntries_perm _)

theorem sortedEntries_pairwise (toks : List (List Char)) :
    (sortDescCnt (jsEntries (freqTable toks))).Pairwise (DescD toks) :=
  sortDescCnt_pairwise toks _
    (jsEntries_pairwise toks _ (freqTable_inv toks).2.2.2.2)

theorem sortedEntries_cnt (toks : List (List Char)) :
    ∀ p ∈ sortDescCnt (jsEntries (freqTable toks)),
      p.2 = occCount toks p.1 := by
  intro p hp
  exact (freqTable_inv toks).2.2.1 p ((sortedEntries_perm toks).mem_iff.mp hp)

theorem sortedEntries_keys_nodup (toks : List (List Char)) :
    ((sortDescCnt (jsEntries (freqTable toks))).map Prod.fst).Nodup := by
  have hperm := (sortedEntries_perm toks).map Prod.fst
  exact hperm.nodup_iff.mpr (freqTable_inv toks).2.2.2.1

theorem kwTokens_prop (content : List Char) (w : List Char)
    (h : w ∈ kwTokens content) :
    2 < w.length ∧ stopWords.contains w = false := by
  rw [kwTokens, List.mem_filter] at h
  have h2 := h.2
  simp only [Bool.and_eq_true, Bool.not_eq_true', decide_eq_true_eq] at h2
  exact h2

/-- C7, amended. `extractKeywords` is a pure function of the content and
the requested maximum (hence deterministic); its result has at most
`maxKeywords` entries, consists of pairwise-distinct tokens of the
filtered token stream — each longer than two characters and outside the
stop-word set — and is ordered by non-increasing occurrence count.  Ties
are NOT broken by first-encountered order in general: the underlying
entry list is sorted stably over the `Object.entries` enumeration, which
moves array-index-like numeric tokens to the front (`EntryOrder`), so the
first-encounter tie-break only holds between two non-numeric tokens. -/
theorem c7_amended (content : List Char) (k : Nat) :
    (extractKeywords content k).length ≤ k ∧
    (∀ w ∈ extractKeywords content k,
      2 < w.length ∧ stopWords.contains w = false ∧ w ∈ kwTokens content) ∧
    (extractKeywords content k).Nodup ∧
    (extractKeywords content k).Pairwise (fun v w =>
      occCount (kwTokens content) w ≤ occCount (kwTokens content) v) ∧
    (sortDescCnt (jsEntries (freqTable (kwTokens content)))).Pairwise
      (DescD (kwTokens content)) ∧
    (∀ p ∈ sortDescCnt (jsEntries (freqTable (kwTokens content))),
      p.2 = occCount (kwTokens content) p.1) := by
  refine ⟨?_, ?_, ?_, ?_,
    sortedEntries_pairwise (kwTokens content),
    sortedEntries_cnt (kwTokens content)⟩
  · rw [extractKeywords, List.length_map, List.length_take]
    exact min_le_left _ _
  · intro w hw
    rw [extractKeywords, List.mem_map] at hw
    obtain ⟨p, hp, hpw⟩ := hw
    have hpL : p ∈ sortDescCnt (jsEntries (freqTable (kwTokens content))) :=
      (List.take_sublist _ _).subset hp
    have hkey : p.1 ∈ kwTokens content :=
      (freqTable_inv (kwTokens content)).1 p
        ((sortedEntries_perm (kwTokens content)).mem_iff.mp hpL)
    rw [← hpw]
    exact ⟨(kwTokens_prop content p.1 hkey).1,
      (kwTokens_prop content p.1 hkey).2, hkey⟩
  · rw [extractKeywords]
    have hsub := (List.take_sublist k
      (sortDescCnt (jsEntries (freqTable (kwTokens content))))).map Prod.fst
    exact (sortedEntries_keys_nodup (kwTokens content)).sublist hsub
  · have hPW := List.Pairwise.sublist
      (List.take_sublist k (sortDescCnt (jsEntries (freqTable (kwTokens content)))))
      (sortedEntries_pairwise (kwTokens content))
    rw [extractKeywords, List.pairwise_map]
    refine hPW.imp_of_mem ?_
    intro p q hp hq hpq
    have hpc := sortedEntries_cnt (kwTokens content) p
      ((List.take_sublist _ _).subset hp)
    have hqc := sortedEntries_cnt (kwTokens content) q
      ((List.take_sublist _ _).subset hq)
    rw [← hpc, ← hqc]
    exact hpq.1

/-- C7 counterexample to the tie-break clause: in the content
`"foo 123"` the tokens `"foo"` and `"123"` both occur exactly once and
`"foo"` is encountered first, yet the extractor returns the numeric
token first — `Object.entries` enumerates the array-index-like key
`"123"` before the insertion-ordered keys, so ties are not broken by
first-encountered order. -/
theorem c7_counterexample :
    extractKeywords ("foo 123".toList) 10 =
        [("123".toList), ("foo".toList)] ∧
    occCount (kwTokens ("foo 123".toList)) ("foo".toList) =
      occCount (kwTokens ("foo 123".toList)) ("123".toList) ∧
    firstIdx (kwTokens ("foo 123".toList)) ("foo".toList) <
      firstIdx (kwTokens ("foo 123".toList)) ("123".toList) := by
  refine ⟨?_, ?_, ?_⟩ <;> decide

theorem processFile_test_long :
    (processFile ("docs/a.md".toList)
      ("---\ntitle: \"Intro\"\n---\nHello world. This is a test of a body long enough to index.".toList)
      ⟨1000, 200⟩ ("docs".toList)).map
        (fun r => (r.title, r.content, r.chunkIndex, r.totalChunks)) =
      [("Intro".toList,
        "Hello world. This is a test of a body long enough to index.".toList,
        0, 1)] := by decide

end NovaRag
